import Mathlib

/-!
# The `//kok:param` directive parser (`gen/http/parser/annotation/param.go`)

A shallow embedding of `ParseParams`, `parseParam`, `ParseParamOptions`,
`parseOption` and `validateLocation`, together with the library functions they
call (`strings.TrimSpace`, `strings.Split`, `strings.Fields`, `strings.SplitN`,
the regular expression `^(\w+)(.*)$` and the `%q` verb of `fmt.Errorf`).

Go strings are modelled as lists of Unicode code points, i.e. as valid UTF-8
text.  A Go `error` is modelled by its message; a `(value, error)` result is an
`Except` whose error side carries the message.
-/

namespace Kun

/-- A Go string holding valid UTF-8, as the list of its code points. -/
abbrev Str := List Char

/-! ## Library functions -/

/-- The predicate `unicode.IsSpace`: the Unicode White_Space property. -/
def isSpace (c : Char) : Bool :=
  (9 ≤ c.toNat && c.toNat ≤ 13) || c.toNat == 0x20 || c.toNat == 0x85 || c.toNat == 0xA0 ||
  c.toNat == 0x1680 || (0x2000 ≤ c.toNat && c.toNat ≤ 0x200A) || c.toNat == 0x2028 ||
  c.toNat == 0x2029 || c.toNat == 0x202F || c.toNat == 0x205F || c.toNat == 0x3000

/-- The function `strings.TrimSpace`: drop leading and trailing white space. -/
def TrimSpace (s : Str) : Str :=
  ((s.dropWhile isSpace).reverse.dropWhile isSpace).reverse

/-- Cut a string at every character satisfying `p`; the pieces exclude the
cut characters, so a string with `n` of them gives `n + 1` pieces. -/
def splitBy (p : Char → Bool) : Str → List Str
  | [] => [[]]
  | c :: cs =>
    if p c then [] :: splitBy p cs
    else
      match splitBy p cs with
      | [] => [[c]]
      | h :: t => (c :: h) :: t

/-- The call `strings.Split(s, sep)` for a one-character separator. -/
def Split (s : Str) (sep : Char) : List Str :=
  splitBy (fun c => c == sep) s

/-- The function `strings.Fields`: the maximal runs of non-space characters. -/
def Fields (s : Str) : List Str :=
  (splitBy isSpace s).filter (fun f => !f.isEmpty)

/-- The call `strings.SplitN(s, sep, 2)` for a one-character separator: the
whole string when `sep` does not occur, else the text before and the text
after its first occurrence. -/
def SplitN2 (s : Str) (sep : Char) : List Str :=
  match s.span (fun c => c != sep) with
  | (a, []) => [a]
  | (a, _ :: b) => [a, b]

/-- The regexp class `\w`: ASCII letters, digits and the underscore. -/
def isWord (c : Char) : Bool :=
  (48 ≤ c.toNat && c.toNat ≤ 57) || (65 ≤ c.toNat && c.toNat ≤ 90) ||
  (97 ≤ c.toNat && c.toNat ≤ 122) || c.toNat == 95

/-- The regexp atom `.` (no `s` flag): any character but a line feed. -/
def isDot (c : Char) : Bool := c.toNat != 10

/-- Matching `^(\w+)(.*)$` with the first group of at most `n` characters,
the longest candidate first (the quantifiers are greedy). -/
def matchUpTo (s : Str) : Nat → Option (Str × Str)
  | 0 => none
  | n + 1 =>
    if n + 1 ≤ s.length && (s.take (n + 1)).all isWord && (s.drop (n + 1)).all isDot then
      some (s.take (n + 1), s.drop (n + 1))
    else matchUpTo s n

/-- The call `reKokParam.FindStringSubmatch(s)` for `^(\w+)(.*)$`: `none` is
the nil result, `some (g1, g2)` the three-element result `[s, g1, g2]`. -/
def reKokParam (s : Str) : Option (Str × Str) :=
  matchUpTo s s.length

/-- One lower-case hexadecimal digit. -/
def hexDigit (n : Nat) : Char :=
  if n % 16 < 10 then Char.ofNat (48 + n % 16) else Char.ofNat (87 + n % 16)

/-- The `k` low hexadecimal digits of `n`, most significant first. -/
def hexDigits : Nat → Nat → Str
  | 0, _ => []
  | k + 1, n => hexDigits k (n / 16) ++ [hexDigit n]

/-- The function `strconv.IsPrint`; `tbl` stands for the library's Unicode
tables, which decide the runes above Latin-1. -/
def IsPrint (tbl : Char → Bool) (r : Char) : Bool :=
  if r.toNat ≤ 0xFF then
    (0x20 ≤ r.toNat && r.toNat ≤ 0x7E) || (0xA1 ≤ r.toNat && r.toNat != 0xAD)
  else tbl r

/-- How `strconv.Quote` writes one rune. -/
def escapeRune (tbl : Char → Bool) (r : Char) : Str :=
  if r.toNat == 34 || r.toNat == 92 then ['\\', r]
  else if IsPrint tbl r then [r]
  else if r.toNat == 7 then ['\\', 'a']
  else if r.toNat == 8 then ['\\', 'b']
  else if r.toNat == 12 then ['\\', 'f']
  else if r.toNat == 10 then ['\\', 'n']
  else if r.toNat == 13 then ['\\', 'r']
  else if r.toNat == 9 then ['\\', 't']
  else if r.toNat == 11 then ['\\', 'v']
  else if r.toNat < 0x20 || r.toNat == 0x7F then '\\' :: 'x' :: hexDigits 2 r.toNat
  else if r.toNat < 0x10000 then '\\' :: 'u' :: hexDigits 4 r.toNat
  else '\\' :: 'U' :: hexDigits 8 r.toNat

/-- The function `strconv.Quote`, which is what the verb `%q` prints. -/
def Quote (tbl : Char → Bool) (s : Str) : Str :=
  '"' :: (s.flatMap (escapeRune tbl) ++ ['"'])

/-! ## Data model -/

deriving instance DecidableEq for Except

/-- Modelled from the spec: the constant `spec.InPath` of the package
`gen/http/spec`, the location tag "path". -/
def InPath : Str := "path".toList

/-- Modelled from the spec: the constant `spec.InQuery`, the tag "query". -/
def InQuery : Str := "query".toList

/-- Modelled from the spec: the constant `spec.InHeader`, the tag "header". -/
def InHeader : Str := "header".toList

/-- Modelled from the spec: the constant `spec.InRequest`, the tag "request". -/
def InRequest : Str := "request".toList

/-- Modelled from the spec: the type `spec.Parameter` of the package
`gen/http/spec`, with the five fields the parser assigns; `new(spec.Parameter)`
is the value with every field zero.  The field `Type` is spelled `Typ`. -/
structure Parameter where
  In : Str := []
  Name : Str := []
  Required : Bool := false
  Typ : Str := []
  Description : Str := []
deriving DecidableEq, Repr

/-- The type `Param`: an argument name and its parameters. -/
structure Param where
  ArgName : Str
  Params : List Parameter := []
deriving DecidableEq, Repr

/-! ## The parser -/

/-- The function `validateLocation`: `none` is the nil error. -/
def validateLocation (tbl : Char → Bool) (loc : Str) : Option Str :=
  if loc ≠ InPath ∧ loc ≠ InQuery ∧ loc ≠ InHeader ∧ loc ≠ InRequest then
    some ("invalid location value: ".toList ++ loc ++ " (must be ".toList ++ Quote tbl InPath ++
      ", ".toList ++ Quote tbl InQuery ++ ", ".toList ++ Quote tbl InHeader ++ " or ".toList ++
      Quote tbl InRequest ++ ")".toList)
  else none

/-- The token loop of `parseOption` (lines 90-117), run on the fields still to
be read with the parameter built so far. -/
def parseTokens (tbl : Char → Bool) : Parameter → List Str → Except Str Parameter
  | p, [] => .ok p
  | p, part0 :: rest =>
    let part := TrimSpace part0
    match SplitN2 part '=' with
    | [k, v] =>
      if k = "in".toList then
        match validateLocation tbl v with
        | some err => .error err
        | none => parseTokens tbl { p with In := v } rest
      else if k = "name".toList then parseTokens tbl { p with Name := v } rest
      else if k = "required".toList then
        parseTokens tbl { p with Required := decide (v = "true".toList) } rest
      else if k = "type".toList then parseTokens tbl { p with Typ := v } rest
      else if k = "descr".toList then parseTokens tbl { p with Description := v } rest
      else .error ("invalid directive argument: ".toList ++ part)
    | _ => .error ("invalid parameter pair: ".toList ++ part)

/-- The statements of `parseOption` after the token loop (lines 119-133). -/
def finishOption (tbl : Char → Bool) (argName : Str) (p : Parameter) : Except Str Parameter :=
  let p1 : Parameter := if p.In = InPath then { p with Required := true } else p
  if p1.In = InRequest ∧ p1.Name ≠ "RemoteAddr".toList then
    .error ("argument ".toList ++ Quote tbl argName ++
      " tries to extract value from `request.".toList ++ p1.Name ++
      "`, but only `request.RemoteAddr` is available".toList)
  else
    .ok (if p1.In = [] then { p1 with In := InQuery } else p1)

/-- The function `parseOption`. -/
def parseOption (tbl : Char → Bool) (argName s : Str) : Except Str Parameter :=
  match parseTokens tbl {} (Fields (TrimSpace s)) with
  | .error e => .error e
  | .ok p => finishOption tbl argName p

/-- The loop of `ParseParamOptions` over the groups still to be read, with the
parameters appended so far. -/
def parseGroups (tbl : Char → Bool) (argName : Str) :
    List Parameter → List Str → Except Str (List Parameter)
  | params, [] => .ok params
  | params, text :: rest =>
    match parseOption tbl argName (TrimSpace text) with
    | .error e => .error e
    | .ok param => parseGroups tbl argName (params ++ [param]) rest

/-- The function `ParseParamOptions`. -/
def ParseParamOptions (tbl : Char → Bool) (argName s : Str) : Except Str (List Parameter) :=
  parseGroups tbl argName [] (Split s ',')

/-- The function `parseParam`. -/
def parseParam (tbl : Char → Bool) (s0 : Str) : Except Str Param :=
  let s := TrimSpace s0
  match reKokParam s with
  | none => .error ("invalid directive arguments: ".toList ++ s)
  | some (argName, r2) =>
    let remaining := TrimSpace r2
    if remaining = [] then .ok { ArgName := argName }
    else
      match ParseParamOptions tbl argName remaining with
      | .error e => .error e
      | .ok opts => .ok { ArgName := argName, Params := [] ++ opts }

/-- The loop of `ParseParams` over the segments still to be read, with the
bindings appended so far. -/
def parseSegments (tbl : Char → Bool) : List Param → List Str → Except Str (List Param)
  | list, [] => .ok list
  | list, text :: rest =>
    match parseParam tbl text with
    | .error e => .error e
    | .ok p => parseSegments tbl (list ++ [p]) rest

/-- The function `ParseParams`. -/
def ParseParams (tbl : Char → Bool) (s0 : Str) : Except Str (List Param) :=
  let s := TrimSpace s0
  if s = [] then .error "empty //kok:param".toList
  else parseSegments tbl [] (Split s ';')

/-! ## Vocabulary of the specification -/

/-- The key of a token: the text before its first `=`. -/
def tokenKey (t : Str) : Str := t.takeWhile (fun c => c != '=')

/-- The value of a token: the text after its first `=`. -/
def tokenValue (t : Str) : Str := (t.dropWhile (fun c => c != '=')).tail

/-- The five recognised keys. -/
def knownKeys : List Str :=
  ["in".toList, "name".toList, "required".toList, "type".toList, "descr".toList]

/-- The four accepted locations. -/
def locations : List Str := [InPath, InQuery, InHeader, InRequest]

/-- A well-formed token: it has an `=`, its key is recognised, and the value
of an `in` token is an accepted location. -/
def wellFormed (t : Str) : Prop :=
  '=' ∈ t ∧ tokenKey t ∈ knownKeys ∧ (tokenKey t = "in".toList → tokenValue t ∈ locations)

instance (t : Str) : Decidable (wellFormed t) := by
  unfold wellFormed; infer_instance

/-- The value of the last token of the list that has an `=` and the key `key`;
`none` when the list has no such token. -/
def lastValue (key : Str) : List Str → Option Str
  | [] => none
  | t :: rest =>
    match lastValue key rest with
    | some v => some v
    | none => if '=' ∈ t ∧ tokenKey t = key then some (tokenValue t) else none

/-- The message of the error `validateLocation` returns for a rejected value. -/
def locationError (tbl : Char → Bool) (v : Str) : Str :=
  "invalid location value: ".toList ++ v ++ " (must be ".toList ++ Quote tbl InPath ++
    ", ".toList ++ Quote tbl InQuery ++ ", ".toList ++ Quote tbl InHeader ++ " or ".toList ++
    Quote tbl InRequest ++ ")".toList

/-- The message of the error a token that is not well formed causes. -/
def tokenError (tbl : Char → Bool) (t : Str) : Str :=
  if '=' ∉ t then "invalid parameter pair: ".toList ++ t
  else if tokenKey t ∈ knownKeys then locationError tbl (tokenValue t)
  else "invalid directive argument: ".toList ++ t

/-- The assignment a well-formed token makes to the parameter under
construction. -/
def applyToken (p : Parameter) (t : Str) : Parameter :=
  if tokenKey t = "in".toList then { p with In := tokenValue t }
  else if tokenKey t = "name".toList then { p with Name := tokenValue t }
  else if tokenKey t = "required".toList then
    { p with Required := decide (tokenValue t = "true".toList) }
  else if tokenKey t = "type".toList then { p with Typ := tokenValue t }
  else if tokenKey t = "descr".toList then { p with Description := tokenValue t }
  else p

/-- The message of the error for a request field other than `RemoteAddr`. -/
def requestError (tbl : Char → Bool) (argName name : Str) : Str :=
  "argument ".toList ++ Quote tbl argName ++
    " tries to extract value from `request.".toList ++ name ++
    "`, but only `request.RemoteAddr` is available".toList

/-- The effective location of a token list: the value of its last `in`
token, the empty string when it has none. -/
def effIn (toks : List Str) : Str := (lastValue "in".toList toks).getD []

/-- The effective name of a token list: the value of its last `name` token,
the empty string when it has none. -/
def effName (toks : List Str) : Str := (lastValue "name".toList toks).getD []

/-- What the `required` tokens give: true exactly when the last one has the
value `true`. -/
def effRequired (toks : List Str) : Bool :=
  decide (lastValue "required".toList toks = some "true".toList)

/-- The Parameter the specification assigns to a list of well-formed tokens:
every field comes from the last token with its key, a missing location is
`query`, and a `path` location forces `Required`. -/
def specParameter (toks : List Str) : Parameter :=
  { In := if effIn toks = [] then InQuery else effIn toks
    Name := effName toks
    Required := decide (effIn toks = InPath) || effRequired toks
    Typ := (lastValue "type".toList toks).getD []
    Description := (lastValue "descr".toList toks).getD [] }

/-- The Option Parser as the specification words it, on the tokens of a
group: the first token that is not well formed gives the error; otherwise the
request-field rule is checked and the Parameter is built. -/
def specOption (tbl : Char → Bool) (argName : Str) (toks : List Str) : Except Str Parameter :=
  match toks.find? (fun t => !decide (wellFormed t)) with
  | some t => .error (tokenError tbl t)
  | none =>
    if effIn toks = InRequest ∧ effName toks ≠ "RemoteAddr".toList then
      .error (requestError tbl argName (effName toks))
    else .ok (specParameter toks)

/-- The keys of a token list are pairwise distinct: no two tokens that have
an `=` share the text before it. -/
def distinctKeys (toks : List Str) : Prop :=
  toks.Pairwise (fun a b => '=' ∈ a → '=' ∈ b → tokenKey a ≠ tokenKey b)

/-- Running `f` over a list from left to right, appending the results to
`acc` and stopping at the first error: the shape of the loops of `ParseParams`
and `ParseParamOptions`. -/
def collect {α β : Type} (f : α → Except Str β) : List β → List α → Except Str (List β)
  | acc, [] => .ok acc
  | acc, a :: rest =>
    match f a with
    | .error e => .error e
    | .ok b => collect f (acc ++ [b]) rest

/-! ## Facts about the library functions -/

theorem splitBy_ne_nil (p : Char → Bool) (s : Str) : splitBy p s ≠ [] := by
  cases s with
  | nil => simp [splitBy]
  | cons c cs =>
    unfold splitBy
    split
    · simp
    · split <;> simp

theorem splitBy_length (p : Char → Bool) (s : Str) :
    (splitBy p s).length = s.countP p + 1 := by
  induction s with
  | nil => simp [splitBy]
  | cons c cs ih =>
    unfold splitBy
    by_cases hc : p c = true
    · simp [hc, ih]
    · simp only [hc, if_false, Bool.false_eq_true]
      have hne := splitBy_ne_nil p cs
      cases hs : splitBy p cs with
      | nil => exact absurd hs hne
      | cons h t =>
        rw [hs] at ih
        simp [List.countP_cons, hc] at ih ⊢
        omega

theorem Split_length (s : Str) (sep : Char) : (Split s sep).length = s.count sep + 1 := by
  unfold Split
  rw [splitBy_length, List.count]

theorem splitBy_free (p : Char → Bool) (s : Str) :
    ∀ x ∈ splitBy p s, ∀ c ∈ x, p c = false := by
  induction s with
  | nil => simp [splitBy]
  | cons c cs ih =>
    unfold splitBy
    by_cases hc : p c = true
    · simp only [hc, if_true]
      intro x hx
      rcases List.mem_cons.1 hx with rfl | hx
      · simp
      · exact ih x hx
    · simp only [hc, if_false, Bool.false_eq_true]
      cases hs : splitBy p cs with
      | nil => simp [hc]
      | cons h t =>
        rw [hs] at ih
        intro x hx
        rcases List.mem_cons.1 hx with rfl | hx
        · intro d hd
          rcases List.mem_cons.1 hd with rfl | hd
          · simpa using hc
          · exact ih h (List.mem_cons_self _ _) d hd
        · exact ih x (List.mem_cons_of_mem _ hx)

theorem Fields_free (s : Str) : ∀ f ∈ Fields s, f ≠ [] ∧ ∀ c ∈ f, isSpace c = false := by
  intro f hf
  unfold Fields at hf
  rcases List.mem_filter.1 hf with ⟨h1, h2⟩
  refine ⟨?_, splitBy_free isSpace s f h1⟩
  intro h
  simp [h] at h2

theorem TrimSpace_eq_self (t : Str) (h : ∀ c ∈ t, isSpace c = false) : TrimSpace t = t := by
  have h1 : ∀ l : Str, (∀ c ∈ l, isSpace c = false) → l.dropWhile isSpace = l := by
    intro l hl
    cases l with
    | nil => rfl
    | cons a l => simp [List.dropWhile_cons, hl a (List.mem_cons_self _ _)]
  unfold TrimSpace
  rw [h1 t h, h1 t.reverse (fun c hc => h c (List.mem_reverse.1 hc)), List.reverse_reverse]

theorem SplitN2_eq (t : Str) :
    SplitN2 t '=' = if '=' ∈ t then [tokenKey t, tokenValue t] else [t] := by
  unfold SplitN2 tokenKey tokenValue
  rw [List.span_eq_take_drop]
  by_cases h : '=' ∈ t
  · simp only [h, if_true]
    cases hd : t.dropWhile (fun c => c != '=') with
    | nil =>
      exfalso
      rw [List.dropWhile_eq_nil_iff] at hd
      simpa using hd '=' h
    | cons a b => simp
  · simp only [h, if_false]
    have hd : t.dropWhile (fun c => c != '=') = [] := by
      rw [List.dropWhile_eq_nil_iff]
      intro c hc
      have : c ≠ '=' := fun e => h (e ▸ hc)
      simpa using this
    have ht : t.takeWhile (fun c => c != '=') = t := by
      rw [List.takeWhile_eq_self_iff]
      intro c hc
      have : c ≠ '=' := fun e => h (e ▸ hc)
      simpa using this
    rw [hd, ht]

theorem validateLocation_eq (tbl : Char → Bool) (v : Str) :
    validateLocation tbl v = if v ∈ locations then none else some (locationError tbl v) := by
  unfold validateLocation locationError locations
  by_cases h1 : v = InPath <;> by_cases h2 : v = InQuery <;> by_cases h3 : v = InHeader <;>
    by_cases h4 : v = InRequest <;> simp [h1, h2, h3, h4]

theorem parseTokens_cons_wf (tbl : Char → Bool) (p : Parameter) (t : Str) (rest : List Str)
    (ht : TrimSpace t = t) (hw : wellFormed t) :
    parseTokens tbl p (t :: rest) = parseTokens tbl (applyToken p t) rest := by
  obtain ⟨he, hk, hl⟩ := hw
  rw [parseTokens]
  simp only [ht]
  rw [SplitN2_eq, if_pos he]
  simp only [applyToken]
  by_cases h1 : tokenKey t = "in".toList
  · simp only [h1, if_true]
    rw [validateLocation_eq, if_pos (hl h1)]
  · simp only [h1, if_false]
    by_cases h2 : tokenKey t = "name".toList
    · simp only [h2, if_true]
    · simp only [h2, if_false]
      by_cases h3 : tokenKey t = "required".toList
      · simp only [h3, if_true]
      · simp only [h3, if_false]
        by_cases h4 : tokenKey t = "type".toList
        · simp only [h4, if_true]
        · simp only [h4, if_false]
          by_cases h5 : tokenKey t = "descr".toList
          · simp only [h5, if_true]
          · exfalso
            simp only [knownKeys, List.mem_cons, List.mem_singleton] at hk
            rcases hk with h | h | h | h | h | h
            · exact h1 h
            · exact h2 h
            · exact h3 h
            · exact h4 h
            · exact h5 h
            · simp at h

theorem parseTokens_cons_bad (tbl : Char → Bool) (p : Parameter) (t : Str) (rest : List Str)
    (ht : TrimSpace t = t) (hw : ¬ wellFormed t) :
    parseTokens tbl p (t :: rest) = .error (tokenError tbl t) := by
  rw [parseTokens]
  simp only [ht]
  rw [SplitN2_eq]
  unfold tokenError
  by_cases he : '=' ∈ t
  · rw [if_pos he, if_neg (not_not.2 he)]
    by_cases h1 : tokenKey t = "in".toList
    · have hk : tokenKey t ∈ knownKeys := by rw [h1]; simp [knownKeys]
      have hv : tokenValue t ∉ locations := fun hv => hw ⟨he, hk, fun _ => hv⟩
      rw [if_pos hk]
      simp only [h1, if_true]
      rw [validateLocation_eq, if_neg hv]
    · have hk : tokenKey t ∉ knownKeys := fun hk => hw ⟨he, hk, fun h => absurd h h1⟩
      rw [if_neg hk]
      simp only [knownKeys, List.mem_cons, List.mem_singleton, not_or] at hk
      obtain ⟨-, h2, h3, h4, h5, -⟩ := hk
      simp only [h1, h2, h3, h4, h5, if_false]
  · rw [if_neg he, if_pos he]

theorem parseTokens_wf (tbl : Char → Bool) (toks : List Str) :
    ∀ p : Parameter, (∀ t ∈ toks, TrimSpace t = t) → (∀ t ∈ toks, wellFormed t) →
      parseTokens tbl p toks = .ok (toks.foldl applyToken p) := by
  induction toks with
  | nil => intro p _ _; rfl
  | cons t rest ih =>
    intro p hs hw
    rw [parseTokens_cons_wf tbl p t rest (hs t (List.mem_cons_self _ _))
      (hw t (List.mem_cons_self _ _))]
    rw [ih (applyToken p t) (fun x hx => hs x (List.mem_cons_of_mem _ hx))
      (fun x hx => hw x (List.mem_cons_of_mem _ hx))]
    rfl

theorem parseTokens_bad (tbl : Char → Bool) (pre : List Str) (t : Str) (post : List Str) :
    ∀ p : Parameter, (∀ x ∈ pre ++ t :: post, TrimSpace x = x) → (∀ x ∈ pre, wellFormed x) →
      ¬ wellFormed t → parseTokens tbl p (pre ++ t :: post) = .error (tokenError tbl t) := by
  induction pre with
  | nil =>
    intro p hs _ hb
    exact parseTokens_cons_bad tbl p t post (hs t (by simp)) hb
  | cons a pre ih =>
    intro p hs hw hb
    rw [List.cons_append, parseTokens_cons_wf tbl p a _ (hs a (by simp))
      (hw a (List.mem_cons_self _ _))]
    exact ih _ (fun x hx => hs x (by simp at hx ⊢; tauto))
      (fun x hx => hw x (List.mem_cons_of_mem _ hx)) hb

/-- A list either has only well-formed tokens or splits at its first token
that is not well formed. -/
theorem wellFormed_split (toks : List Str) :
    (∀ t ∈ toks, wellFormed t) ∨
    ∃ pre t post, toks = pre ++ t :: post ∧ (∀ x ∈ pre, wellFormed x) ∧ ¬ wellFormed t := by
  induction toks with
  | nil => left; simp
  | cons a rest ih =>
    by_cases ha : wellFormed a
    · rcases ih with h | ⟨pre, t, post, h1, h2, h3⟩
      · left
        intro t ht
        rcases List.mem_cons.1 ht with rfl | ht
        · exact ha
        · exact h t ht
      · right
        refine ⟨a :: pre, t, post, by rw [h1]; rfl, ?_, h3⟩
        intro x hx
        rcases List.mem_cons.1 hx with rfl | hx
        · exact ha
        · exact h2 x hx
    · right
      exact ⟨[], a, rest, rfl, by simp, ha⟩

theorem parseTokens_ok_iff (tbl : Char → Bool) (p : Parameter) (toks : List Str)
    (hs : ∀ t ∈ toks, TrimSpace t = t) :
    (∃ q, parseTokens tbl p toks = .ok q) ↔ ∀ t ∈ toks, wellFormed t := by
  constructor
  · rintro ⟨q, hq⟩
    rcases wellFormed_split toks with h | ⟨pre, t, post, h1, h2, h3⟩
    · exact h
    · rw [h1] at hs hq
      rw [parseTokens_bad tbl pre t post p hs h2 h3] at hq
      cases hq
  · intro hw
    exact ⟨_, parseTokens_wf tbl toks p hs hw⟩

theorem foldl_applyToken_In (toks : List Str) :
    ∀ p : Parameter, (∀ t ∈ toks, '=' ∈ t) →
      (toks.foldl applyToken p).In = (lastValue "in".toList toks).getD p.In := by
  induction toks with
  | nil => intro p _; rfl
  | cons t rest ih =>
    intro p he
    rw [List.foldl_cons, ih _ (fun x hx => he x (List.mem_cons_of_mem _ hx))]
    have het := he t (List.mem_cons_self _ _)
    rw [lastValue]
    cases lastValue "in".toList rest with
    | some v => rfl
    | none =>
      simp only [Option.getD_none, het, true_and]
      unfold applyToken
      by_cases h1 : tokenKey t = "in".toList
      · rw [if_pos h1, if_pos h1]; rfl
      · rw [if_neg h1, if_neg h1]
        split_ifs <;> rfl

theorem foldl_applyToken_Name (toks : List Str) :
    ∀ p : Parameter, (∀ t ∈ toks, '=' ∈ t) →
      (toks.foldl applyToken p).Name = (lastValue "name".toList toks).getD p.Name := by
  induction toks with
  | nil => intro p _; rfl
  | cons t rest ih =>
    intro p he
    rw [List.foldl_cons, ih _ (fun x hx => he x (List.mem_cons_of_mem _ hx))]
    have het := he t (List.mem_cons_self _ _)
    rw [lastValue]
    cases lastValue "name".toList rest with
    | some v => rfl
    | none =>
      simp only [Option.getD_none, Option.map_none', het, true_and]
      unfold applyToken
      by_cases h : tokenKey t = "name".toList
      · rw [if_pos h]
        have n0 : tokenKey t ≠ "in".toList := by rw [h]; decide
        rw [if_neg n0, if_pos h]; rfl
      · rw [if_neg h]
        split_ifs <;> rfl

theorem foldl_applyToken_Required (toks : List Str) :
    ∀ p : Parameter, (∀ t ∈ toks, '=' ∈ t) →
      (toks.foldl applyToken p).Required =
        ((lastValue "required".toList toks).map
          (fun v => decide (v = "true".toList))).getD p.Required := by
  induction toks with
  | nil => intro p _; rfl
  | cons t rest ih =>
    intro p he
    rw [List.foldl_cons, ih _ (fun x hx => he x (List.mem_cons_of_mem _ hx))]
    have het := he t (List.mem_cons_self _ _)
    rw [lastValue]
    cases lastValue "required".toList rest with
    | some v => rfl
    | none =>
      simp only [Option.getD_none, Option.map_none', het, true_and]
      unfold applyToken
      by_cases h : tokenKey t = "required".toList
      · rw [if_pos h]
        have n0 : tokenKey t ≠ "in".toList := by rw [h]; decide
        have n1 : tokenKey t ≠ "name".toList := by rw [h]; decide
        rw [if_neg n0, if_neg n1, if_pos h]; rfl
      · rw [if_neg h]
        split_ifs <;> rfl

theorem foldl_applyToken_Typ (toks : List Str) :
    ∀ p : Parameter, (∀ t ∈ toks, '=' ∈ t) →
      (toks.foldl applyToken p).Typ = (lastValue "type".toList toks).getD p.Typ := by
  induction toks with
  | nil => intro p _; rfl
  | cons t rest ih =>
    intro p he
    rw [List.foldl_cons, ih _ (fun x hx => he x (List.mem_cons_of_mem _ hx))]
    have het := he t (List.mem_cons_self _ _)
    rw [lastValue]
    cases lastValue "type".toList rest with
    | some v => rfl
    | none =>
      simp only [Option.getD_none, Option.map_none', het, true_and]
      unfold applyToken
      by_cases h : tokenKey t = "type".toList
      · rw [if_pos h]
        have n0 : tokenKey t ≠ "in".toList := by rw [h]; decide
        have n1 : tokenKey t ≠ "name".toList := by rw [h]; decide
        have n2 : tokenKey t ≠ "required".toList := by rw [h]; decide
        rw [if_neg n0, if_neg n1, if_neg n2, if_pos h]; rfl
      · rw [if_neg h]
        split_ifs <;> rfl

theorem foldl_applyToken_Description (toks : List Str) :
    ∀ p : Parameter, (∀ t ∈ toks, '=' ∈ t) →
      (toks.foldl applyToken p).Description =
        (lastValue "descr".toList toks).getD p.Description := by
  induction toks with
  | nil => intro p _; rfl
  | cons t rest ih =>
    intro p he
    rw [List.foldl_cons, ih _ (fun x hx => he x (List.mem_cons_of_mem _ hx))]
    have het := he t (List.mem_cons_self _ _)
    rw [lastValue]
    cases lastValue "descr".toList rest with
    | some v => rfl
    | none =>
      simp only [Option.getD_none, Option.map_none', het, true_and]
      unfold applyToken
      by_cases h : tokenKey t = "descr".toList
      · rw [if_pos h]
        have n0 : tokenKey t ≠ "in".toList := by rw [h]; decide
        have n1 : tokenKey t ≠ "name".toList := by rw [h]; decide
        have n2 : tokenKey t ≠ "required".toList := by rw [h]; decide
        have n3 : tokenKey t ≠ "type".toList := by rw [h]; decide
        rw [if_neg n0, if_neg n1, if_neg n2, if_neg n3, if_pos h]; rfl
      · rw [if_neg h]
        split_ifs <;> rfl

theorem parseTokens_eq_find (tbl : Char → Bool) (toks : List Str) :
    ∀ p : Parameter, (∀ t ∈ toks, TrimSpace t = t) →
      parseTokens tbl p toks =
        match toks.find? (fun t => !decide (wellFormed t)) with
        | some t => .error (tokenError tbl t)
        | none => .ok (toks.foldl applyToken p) := by
  induction toks with
  | nil => intro p _; rfl
  | cons t rest ih =>
    intro p hs
    have ht := hs t (List.mem_cons_self _ _)
    by_cases hw : wellFormed t
    · rw [parseTokens_cons_wf tbl p t rest ht hw,
        ih _ (fun x hx => hs x (List.mem_cons_of_mem _ hx))]
      simp [List.find?_cons, hw]
    · rw [parseTokens_cons_bad tbl p t rest ht hw]
      simp [List.find?_cons, hw]

theorem find_none_wellFormed (toks : List Str)
    (h : toks.find? (fun t => !decide (wellFormed t)) = none) : ∀ t ∈ toks, wellFormed t := by
  intro t ht
  have := List.find?_eq_none.1 h t ht
  simpa using this

/-- The embedding of `parseOption` refines the Option Parser of the
specification, on the tokens `strings.Fields` finds in the trimmed group. -/
theorem parseOption_eq_spec (tbl : Char → Bool) (argName s : Str) :
    parseOption tbl argName s = specOption tbl argName (Fields (TrimSpace s)) := by
  unfold parseOption specOption
  have hs : ∀ t ∈ Fields (TrimSpace s), TrimSpace t = t := fun t ht =>
    TrimSpace_eq_self t (Fields_free _ t ht).2
  rw [parseTokens_eq_find tbl _ _ hs]
  cases hf : (Fields (TrimSpace s)).find? (fun t => !decide (wellFormed t)) with
  | some t => rfl
  | none =>
    simp only
    have hw := find_none_wellFormed _ hf
    have he : ∀ t ∈ Fields (TrimSpace s), '=' ∈ t := fun t ht => (hw t ht).1
    generalize Fields (TrimSpace s) = toks at hw he
    have hIn := foldl_applyToken_In toks {} he
    have hName := foldl_applyToken_Name toks {} he
    have hReq := foldl_applyToken_Required toks {} he
    have hTyp := foldl_applyToken_Typ toks {} he
    have hDes := foldl_applyToken_Description toks {} he
    generalize toks.foldl applyToken {} = q at hIn hName hReq hTyp hDes
    obtain ⟨qi, qn, qr, qt, qd⟩ := q
    simp only at hIn hName hReq hTyp hDes
    subst hIn hName hReq hTyp hDes
    unfold finishOption specParameter effIn effName effRequired requestError
    generalize (lastValue "in".toList toks).getD [] = vi
    generalize (lastValue "name".toList toks).getD [] = vn
    generalize lastValue "required".toList toks = vr
    generalize "RemoteAddr".toList = ra
    have h1 : InPath ≠ InRequest := by decide
    have h2 : InPath ≠ ([] : Str) := by decide
    have h3 : InRequest ≠ ([] : Str) := by decide
    by_cases hp : vi = InPath
    · subst hp
      simp [h1, h2]
    · by_cases hr : vi = InRequest
      · subst hr
        by_cases hn : vn = ra
        · subst hn
          simp [hp, h3]
          cases vr <;> simp
        · simp [hp, hn, h3]
      · by_cases h0 : vi = []
        · subst h0
          simp [hp, hr]
          cases vr <;> simp
        · simp [hp, hr, h0]
          cases vr <;> simp

/-! ## The regular expression as a scan -/

theorem take_all_iff (p : Char → Bool) (s : Str) :
    ∀ m, m ≤ s.length → ((s.take m).all p = true ↔ m ≤ (s.takeWhile p).length) := by
  induction s with
  | nil => intro m hm; simp at hm; simp [hm]
  | cons c cs ih =>
    intro m hm
    cases m with
    | zero => simp
    | succ m =>
      have hm1 : m ≤ cs.length := by simpa using hm
      by_cases hc : p c = true
      · simp [List.takeWhile_cons, hc]
        simpa using ih m hm1
      · simp [List.takeWhile_cons, hc]

theorem take_takeWhile_length (p : Char → Bool) (s : Str) :
    s.take (s.takeWhile p).length = s.takeWhile p ∧
    s.drop (s.takeWhile p).length = s.dropWhile p := by
  induction s with
  | nil => simp
  | cons c cs ih =>
    by_cases hc : p c = true
    · simp [List.takeWhile_cons, List.dropWhile_cons, hc, ih.1, ih.2]
    · simp [List.takeWhile_cons, List.dropWhile_cons, hc]

theorem takeWhile_length_le (p : Char → Bool) (s : Str) : (s.takeWhile p).length ≤ s.length := by
  induction s with
  | nil => simp
  | cons c cs ih =>
    by_cases hc : p c = true
    · simp [List.takeWhile_cons, hc, ih]
    · simp [List.takeWhile_cons, hc]

theorem drop_all_succ (p : Char → Bool) (s : Str) (n : Nat) (h : (s.drop n).all p = true) :
    (s.drop (n + 1)).all p = true := by
  rw [← List.tail_drop]
  rw [List.all_eq_true] at h ⊢
  intro x hx
  exact h x (List.mem_of_mem_tail hx)

theorem drop_all_le (p : Char → Bool) (s : Str) (n m : Nat) (hnm : n ≤ m)
    (h : (s.drop n).all p = true) : (s.drop m).all p = true := by
  induction m with
  | zero =>
    have : n = 0 := by omega
    rw [this] at h; exact h
  | succ m ih =>
    by_cases hn : n = m + 1
    · rw [hn] at h; exact h
    · exact drop_all_succ p s m (ih (by omega))

theorem matchUpTo_eq (s : Str) :
    ∀ n, n ≤ s.length →
      matchUpTo s n =
        if 1 ≤ min n (s.takeWhile isWord).length ∧
            (s.drop (min n (s.takeWhile isWord).length)).all isDot = true then
          some (s.take (min n (s.takeWhile isWord).length),
            s.drop (min n (s.takeWhile isWord).length))
        else none := by
  intro n
  induction n with
  | zero => intro _; simp [matchUpTo]
  | succ n ih =>
    intro hn
    have ihn := ih (by omega)
    rw [matchUpTo]
    by_cases hk : n + 1 ≤ (s.takeWhile isWord).length
    · have hw : (s.take (n + 1)).all isWord = true := (take_all_iff isWord s (n + 1) hn).2 hk
      have hmin : min (n + 1) (s.takeWhile isWord).length = n + 1 := by omega
      have hmin0 : min n (s.takeWhile isWord).length = n := by omega
      rw [hmin]
      by_cases hd : (s.drop (n + 1)).all isDot = true
      · simp [hn, hw, hd]
      · have hd0 : ¬ (s.drop n).all isDot = true := fun h => hd (drop_all_succ isDot s n h)
        rw [ihn, hmin0]
        simp only [hn, hw, hd, hd0, and_false, if_false, decide_True, Bool.and_true,
          Bool.true_and, Bool.false_eq_true, Bool.and_false]
    · have hw : ¬ (s.take (n + 1)).all isWord = true := fun h =>
        hk ((take_all_iff isWord s (n + 1) hn).1 h)
      have hmin : min (n + 1) (s.takeWhile isWord).length = min n (s.takeWhile isWord).length := by
        omega
      rw [ihn, hmin]
      simp only [hw, Bool.and_false, Bool.false_and, Bool.false_eq_true, if_false]

theorem reKokParam_eq (s : Str) :
    reKokParam s =
      if s.takeWhile isWord ≠ [] ∧ (s.dropWhile isWord).all isDot = true then
        some (s.takeWhile isWord, s.dropWhile isWord)
      else none := by
  unfold reKokParam
  rw [matchUpTo_eq s s.length (le_refl _)]
  have hmin : min s.length (s.takeWhile isWord).length = (s.takeWhile isWord).length :=
    Nat.min_eq_right (takeWhile_length_le isWord s)
  rw [hmin, (take_takeWhile_length isWord s).1, (take_takeWhile_length isWord s).2]
  have : 1 ≤ (s.takeWhile isWord).length ↔ s.takeWhile isWord ≠ [] := by
    rw [Nat.one_le_iff_ne_zero, ne_eq, List.length_eq_zero]
  simp only [this]

/-! ## Facts about the loops -/

theorem collect_ok_iff {α β : Type} (f : α → Except Str β) (l : List α) :
    ∀ (acc r : List β), collect f acc l = .ok r ↔
      ∃ bs, r = acc ++ bs ∧ List.Forall₂ (fun a b => f a = .ok b) l bs := by
  induction l with
  | nil =>
    intro acc r
    simp only [collect, Except.ok.injEq, List.forall₂_nil_left_iff]
    constructor
    · intro h; exact ⟨[], by simp [h], rfl⟩
    · rintro ⟨bs, h, rfl⟩; simp [h]
  | cons a rest ih =>
    intro acc r
    rw [collect]
    cases hfa : f a with
    | error e =>
      constructor
      · intro h; cases h
      · rintro ⟨bs, _, hb⟩
        cases hb with
        | cons h _ => rw [hfa] at h; cases h
    | ok b =>
      simp only
      rw [ih]
      constructor
      · rintro ⟨bs, h, hb⟩
        exact ⟨b :: bs, by simp [h], List.Forall₂.cons hfa hb⟩
      · rintro ⟨bs, h, hb⟩
        cases hb with
        | cons h1 h2 =>
          rw [hfa] at h1
          cases h1
          exact ⟨_, by simp [h], h2⟩

theorem collect_error_iff {α β : Type} (f : α → Except Str β) (l : List α) :
    ∀ (acc : List β) (e : Str), collect f acc l = .error e ↔
      ∃ pre a post, l = pre ++ a :: post ∧ (∀ x ∈ pre, ∃ b, f x = .ok b) ∧ f a = .error e := by
  induction l with
  | nil =>
    intro acc e
    simp [collect]
  | cons a rest ih =>
    intro acc e
    rw [collect]
    cases hfa : f a with
    | error e1 =>
      simp only [Except.error.injEq]
      constructor
      · rintro rfl
        exact ⟨[], a, rest, rfl, by simp, hfa⟩
      · rintro ⟨pre, x, post, h1, h2, h3⟩
        cases pre with
        | nil =>
          simp only [List.nil_append, List.cons.injEq] at h1
          rw [← h1.1, hfa] at h3
          cases h3; rfl
        | cons y pre =>
          simp only [List.cons_append, List.cons.injEq] at h1
          obtain ⟨b, hb⟩ := h2 y (List.mem_cons_self _ _)
          rw [← h1.1, hfa] at hb
          cases hb
    | ok b =>
      simp only
      rw [ih]
      constructor
      · rintro ⟨pre, x, post, h1, h2, h3⟩
        refine ⟨a :: pre, x, post, by simp [h1], ?_, h3⟩
        intro y hy
        rcases List.mem_cons.1 hy with rfl | hy
        · exact ⟨b, hfa⟩
        · exact h2 y hy
      · rintro ⟨pre, x, post, h1, h2, h3⟩
        cases pre with
        | nil =>
          simp only [List.nil_append, List.cons.injEq] at h1
          rw [← h1.1, hfa] at h3
          cases h3
        | cons y pre =>
          simp only [List.cons_append, List.cons.injEq] at h1
          exact ⟨pre, x, post, h1.2, fun z hz => h2 z (List.mem_cons_of_mem _ hz), h3⟩

theorem parseSegments_eq (tbl : Char → Bool) (l : List Str) :
    ∀ acc, parseSegments tbl acc l = collect (parseParam tbl) acc l := by
  induction l with
  | nil => intro acc; rfl
  | cons a rest ih =>
    intro acc
    rw [parseSegments, collect]
    cases parseParam tbl a with
    | error e => rfl
    | ok b => exact ih _

theorem parseGroups_eq (tbl : Char → Bool) (argName : Str) (l : List Str) :
    ∀ acc, parseGroups tbl argName acc l =
      collect (fun text => parseOption tbl argName (TrimSpace text)) acc l := by
  induction l with
  | nil => intro acc; rfl
  | cons a rest ih =>
    intro acc
    rw [parseGroups, collect]
    cases parseOption tbl argName (TrimSpace a) with
    | error e => rfl
    | ok b => exact ih _

theorem Split_intercalate (s : Str) (sep : Char) : [sep].intercalate (Split s sep) = s := by
  unfold Split
  induction s with
  | nil => simp [splitBy, List.intercalate]
  | cons c cs ih =>
    have hne := splitBy_ne_nil (fun c => c == sep) cs
    unfold splitBy
    cases hs : splitBy (fun c => c == sep) cs with
    | nil => exact absurd hs hne
    | cons h t =>
      rw [hs] at ih
      by_cases hc : c = sep
      · subst hc
        simp only [beq_self_eq_true, if_true]
        simp only [List.intercalate, List.intersperse_cons₂, List.flatten_cons,
          List.nil_append, List.singleton_append] at ih ⊢
        rw [ih]
      · have hc1 : (c == sep) = false := by simpa using hc
        simp only [hc1, Bool.false_eq_true, if_false]
        cases t with
        | nil =>
          simp only [List.intercalate, List.intersperse_single, List.flatten_cons,
            List.flatten_nil, List.append_nil] at ih ⊢
          rw [ih]
        | cons t1 t2 =>
          simp only [List.intercalate, List.intersperse_cons₂, List.flatten_cons,
            List.cons_append] at ih ⊢
          rw [ih]

theorem Split_free (s : Str) (sep : Char) : ∀ seg ∈ Split s sep, sep ∉ seg := by
  intro seg hseg hmem
  have := splitBy_free (fun c => c == sep) s seg hseg sep hmem
  simp at this

theorem ParseParams_ok_iff (tbl : Char → Bool) (s : Str) (l : List Param) :
    ParseParams tbl s = .ok l ↔
      TrimSpace s ≠ [] ∧
      List.Forall₂ (fun seg p => parseParam tbl seg = .ok p) (Split (TrimSpace s) ';') l := by
  unfold ParseParams
  by_cases h : TrimSpace s = []
  · simp [h]
  · simp only [h, if_false, ne_eq, not_false_eq_true, true_and]
    rw [parseSegments_eq, collect_ok_iff]
    simp

theorem ParseParams_error_iff (tbl : Char → Bool) (s : Str) (e : Str) (h : TrimSpace s ≠ []) :
    ParseParams tbl s = .error e ↔
      ∃ pre seg post, Split (TrimSpace s) ';' = pre ++ seg :: post ∧
        (∀ x ∈ pre, ∃ p, parseParam tbl x = .ok p) ∧ parseParam tbl seg = .error e := by
  unfold ParseParams
  simp only [h, if_false]
  rw [parseSegments_eq, collect_error_iff]

theorem ParseParamOptions_ok_iff (tbl : Char → Bool) (argName s : Str) (l : List Parameter) :
    ParseParamOptions tbl argName s = .ok l ↔
      List.Forall₂ (fun g p => parseOption tbl argName (TrimSpace g) = .ok p) (Split s ',') l := by
  unfold ParseParamOptions
  rw [parseGroups_eq, collect_ok_iff]
  simp

theorem ParseParamOptions_error_iff (tbl : Char → Bool) (argName s : Str) (e : Str) :
    ParseParamOptions tbl argName s = .error e ↔
      ∃ pre g post, Split s ',' = pre ++ g :: post ∧
        (∀ x ∈ pre, ∃ p, parseOption tbl argName (TrimSpace x) = .ok p) ∧
        parseOption tbl argName (TrimSpace g) = .error e := by
  unfold ParseParamOptions
  rw [parseGroups_eq, collect_error_iff]

theorem specOption_error_head (tbl : Char → Bool) (argName : Str) (toks : List Str) (e : Str)
    (h : specOption tbl argName toks = .error e) : e.head? = some 'i' ∨ e.head? = some 'a' := by
  unfold specOption at h
  split at h
  · rename_i t _
    left
    injection h with h
    rw [← h]
    unfold tokenError locationError
    split_ifs <;> rfl
  · split_ifs at h
    right
    injection h with h
    rw [← h]
    rfl

theorem parseParam_error_head (tbl : Char → Bool) (seg e : Str)
    (h : parseParam tbl seg = .error e) : e.head? = some 'i' ∨ e.head? = some 'a' := by
  unfold parseParam at h
  simp only at h
  split at h
  · left
    injection h with h
    rw [← h]
    rfl
  · rename_i argName r2 _
    split_ifs at h
    split at h
    · rename_i e1 he1
      injection h with h
      subst h
      obtain ⟨pre, g, post, -, -, hg⟩ := (ParseParamOptions_error_iff tbl _ _ _).1 he1
      rw [parseOption_eq_spec] at hg
      exact specOption_error_head tbl _ _ _ hg
    · cases h

/-! ## Facts about the specification's Option Parser -/

theorem lastValue_mem (key : Str) (toks : List Str) (v : Str)
    (h : lastValue key toks = some v) :
    ∃ t ∈ toks, '=' ∈ t ∧ tokenKey t = key ∧ tokenValue t = v := by
  induction toks with
  | nil => simp [lastValue] at h
  | cons t rest ih =>
    rw [lastValue] at h
    cases hr : lastValue key rest with
    | some w =>
      rw [hr] at h
      simp only [Option.some.injEq] at h
      subst h
      obtain ⟨x, hx, hx2⟩ := ih hr
      exact ⟨x, List.mem_cons_of_mem _ hx, hx2⟩
    | none =>
      rw [hr] at h
      simp only at h
      split_ifs at h with hc
      simp only [Option.some.injEq] at h
      exact ⟨t, List.mem_cons_self _ _, hc.1, hc.2, h⟩

theorem lastValue_none (key : Str) (toks : List Str)
    (h : ∀ t ∈ toks, tokenKey t ≠ key) : lastValue key toks = none := by
  induction toks with
  | nil => rfl
  | cons t rest ih =>
    rw [lastValue, ih (fun x hx => h x (List.mem_cons_of_mem _ hx))]
    simp [h t (List.mem_cons_self _ _)]

theorem effIn_wf (toks : List Str) (hw : ∀ t ∈ toks, wellFormed t) :
    effIn toks = [] ∨ effIn toks ∈ locations := by
  unfold effIn
  cases h : lastValue "in".toList toks with
  | none => left; rfl
  | some v =>
    right
    obtain ⟨t, ht, -, hk, hv⟩ := lastValue_mem _ _ _ h
    rw [Option.getD_some, ← hv]
    exact (hw t ht).2.2 hk

theorem specOption_ok (tbl : Char → Bool) (argName : Str) (toks : List Str) (p : Parameter)
    (h : specOption tbl argName toks = .ok p) :
    (∀ t ∈ toks, wellFormed t) ∧ (effIn toks = InRequest → effName toks = "RemoteAddr".toList) ∧
    p = specParameter toks := by
  unfold specOption at h
  split at h
  · cases h
  · rename_i hf
    split_ifs at h with hc
    injection h with h
    refine ⟨find_none_wellFormed _ hf, ?_, h.symm⟩
    intro hr
    by_contra hn
    exact hc ⟨hr, hn⟩

theorem specOption_of_wf (tbl : Char → Bool) (argName : Str) (toks : List Str)
    (hw : ∀ t ∈ toks, wellFormed t) :
    specOption tbl argName toks =
      if effIn toks = InRequest ∧ effName toks ≠ "RemoteAddr".toList then
        .error (requestError tbl argName (effName toks))
      else .ok (specParameter toks) := by
  unfold specOption
  have : toks.find? (fun t => !decide (wellFormed t)) = none := by
    rw [List.find?_eq_none]
    intro t ht
    simpa using hw t ht
  rw [this]

theorem specOption_of_bad (tbl : Char → Bool) (argName : Str) (pre : List Str) (t : Str)
    (post : List Str) (hw : ∀ x ∈ pre, wellFormed x) (hb : ¬ wellFormed t) :
    specOption tbl argName (pre ++ t :: post) = .error (tokenError tbl t) := by
  unfold specOption
  have : (pre ++ t :: post).find? (fun t => !decide (wellFormed t)) = some t := by
    induction pre with
    | nil => simp [List.find?_cons, hb]
    | cons a pre ih =>
      rw [List.cons_append, List.find?_cons]
      have ha := hw a (List.mem_cons_self _ _)
      simp only [ha, decide_True, Bool.not_true]
      exact ih (fun x hx => hw x (List.mem_cons_of_mem _ hx))
  rw [this]

theorem specParameter_In (toks : List Str) (hw : ∀ t ∈ toks, wellFormed t) :
    (specParameter toks).In ∈ locations := by
  unfold specParameter
  simp only
  rcases effIn_wf toks hw with h | h
  · rw [if_pos h]; simp [locations]
  · have hne : effIn toks ≠ [] := by
      intro h0
      rw [h0] at h
      revert h
      decide
    rw [if_neg hne]; exact h

theorem forall₂_mem_right {α β : Type} {R : α → β → Prop} {l1 : List α} {l2 : List β}
    (h : List.Forall₂ R l1 l2) : ∀ b ∈ l2, ∃ a ∈ l1, R a b := by
  induction h with
  | nil => simp
  | cons hab _ ih =>
    intro b hb
    rcases List.mem_cons.1 hb with rfl | hb
    · exact ⟨_, List.mem_cons_self _ _, hab⟩
    · obtain ⟨a, ha, hr⟩ := ih b hb
      exact ⟨a, List.mem_cons_of_mem _ ha, hr⟩

theorem parseParam_ok (tbl : Char → Bool) (seg : Str) (b : Param)
    (h : parseParam tbl seg = .ok b) :
    (TrimSpace seg).takeWhile isWord ≠ [] ∧
    b.ArgName = (TrimSpace seg).takeWhile isWord ∧
    ((TrimSpace ((TrimSpace seg).dropWhile isWord) = [] ∧ b.Params = []) ∨
     (TrimSpace ((TrimSpace seg).dropWhile isWord) ≠ [] ∧
      ParseParamOptions tbl b.ArgName (TrimSpace ((TrimSpace seg).dropWhile isWord)) =
        .ok b.Params)) := by
  unfold parseParam at h
  simp only at h
  rw [reKokParam_eq] at h
  split_ifs at h with hc
  simp only at h
  split_ifs at h with hr
  · injection h with h
    subst h
    exact ⟨hc.1, rfl, Or.inl ⟨hr, rfl⟩⟩
  · split at h
    · cases h
    · rename_i opts ho
      injection h with h
      subst h
      exact ⟨hc.1, rfl, Or.inr ⟨hr, by simpa using ho⟩⟩

theorem ParseParamOptions_mem (tbl : Char → Bool) (argName s : Str) (l : List Parameter)
    (h : ParseParamOptions tbl argName s = .ok l) :
    ∀ p ∈ l, ∃ g ∈ Split s ',', parseOption tbl argName (TrimSpace g) = .ok p :=
  forall₂_mem_right ((ParseParamOptions_ok_iff tbl argName s l).1 h)

theorem ParseParams_mem (tbl : Char → Bool) (s : Str) (l : List Param)
    (h : ParseParams tbl s = .ok l) :
    ∀ b ∈ l, ∃ seg ∈ Split (TrimSpace s) ';', parseParam tbl seg = .ok b :=
  forall₂_mem_right ((ParseParams_ok_iff tbl s l).1 h).2

/-- Every Parameter of a successful `ParseParams` is the result of `parseOption`
on some group, for the argument name of its Binding. -/
theorem ParseParams_param (tbl : Char → Bool) (s : Str) (l : List Param)
    (h : ParseParams tbl s = .ok l) :
    ∀ b ∈ l, ∀ p ∈ b.Params, ∃ g, parseOption tbl b.ArgName g = .ok p := by
  intro b hb p hp
  obtain ⟨seg, -, hseg⟩ := ParseParams_mem tbl s l h b hb
  obtain ⟨-, -, h3⟩ := parseParam_ok tbl seg b hseg
  rcases h3 with ⟨-, h3⟩ | ⟨-, h3⟩
  · rw [h3] at hp; cases hp
  · obtain ⟨g, -, hg⟩ := ParseParamOptions_mem tbl _ _ _ h3 p hp
    exact ⟨_, hg⟩

theorem dropWhile_head_not (p : Char → Bool) (s : Str) :
    ∀ c ∈ (s.dropWhile p).head?, p c = false := by
  induction s with
  | nil => simp
  | cons a s ih =>
    by_cases ha : p a = true
    · rw [List.dropWhile_cons_of_pos ha]; exact ih
    · rw [List.dropWhile_cons_of_neg ha]
      intro c hc
      simp only [List.head?_cons, Option.mem_def, Option.some.injEq] at hc
      subst hc
      simpa using ha

theorem token_split (t : Str) (h : '=' ∈ t) :
    t = tokenKey t ++ '=' :: tokenValue t ∧ '=' ∉ tokenKey t := by
  unfold tokenKey tokenValue
  constructor
  · have h1 := List.takeWhile_append_dropWhile (fun c => c != '=') t
    cases hd : t.dropWhile (fun c => c != '=') with
    | nil =>
      exfalso
      rw [List.dropWhile_eq_nil_iff] at hd
      simpa using hd '=' h
    | cons a b =>
      have ha := dropWhile_head_not (fun c => c != '=') t a (by rw [hd]; simp)
      have ha1 : a = '=' := by simpa using ha
      rw [hd, ha1] at h1
      simpa using h1.symm
  · intro hm
    have := List.mem_takeWhile_imp hm
    simp at this

/-! ## Facts about `strconv.Quote` -/

theorem toNat_ne_of_ne (c : Char) (n : Nat) (h : c ≠ Char.ofNat n) : c.toNat ≠ n := by
  intro hc
  apply h
  rw [← hc, Char.ofNat_toNat]

theorem escapeRune_plain (tbl : Char → Bool) (c : Char)
    (h : IsPrint tbl c = true ∧ c ≠ '"' ∧ c ≠ '\\') : escapeRune tbl c = [c] := by
  obtain ⟨h1, h2, h3⟩ := h
  have n2 : c.toNat ≠ 34 := toNat_ne_of_ne c 34 h2
  have n3 : c.toNat ≠ 92 := toNat_ne_of_ne c 92 h3
  unfold escapeRune
  simp [n2, n3, h1]

theorem Quote_plain (tbl : Char → Bool) (s : Str)
    (h : ∀ c ∈ s, IsPrint tbl c = true ∧ c ≠ '"' ∧ c ≠ '\\') :
    Quote tbl s = '"' :: (s ++ ['"']) := by
  unfold Quote
  have : s.flatMap (escapeRune tbl) = s := by
    induction s with
    | nil => rfl
    | cons c cs ih =>
      rw [List.flatMap_cons, escapeRune_plain tbl c (h c (List.mem_cons_self _ _)),
        ih (fun x hx => h x (List.mem_cons_of_mem _ hx))]
      rfl
  rw [this]

theorem isWord_plain (tbl : Char → Bool) (c : Char) (h : isWord c = true) :
    IsPrint tbl c = true ∧ c ≠ '"' ∧ c ≠ '\\' := by
  unfold isWord at h
  simp only [Bool.or_eq_true, Bool.and_eq_true, decide_eq_true_eq, beq_iff_eq] at h
  refine ⟨?_, ?_, ?_⟩
  · unfold IsPrint
    have h1 : c.toNat ≤ 0xFF := by omega
    rw [if_pos h1]
    simp only [Bool.or_eq_true, Bool.and_eq_true, decide_eq_true_eq]
    left
    omega
  · rintro rfl
    revert h
    decide
  · rintro rfl
    revert h
    decide

/-! ## Last occurrences and the quoted constants -/

theorem lastValue_last (key : Str) (pre : List Str) (t : Str) (post : List Str)
    (he : '=' ∈ t) (hk : tokenKey t = key) (hp : ∀ x ∈ post, tokenKey x ≠ key) :
    lastValue key (pre ++ t :: post) = some (tokenValue t) := by
  induction pre with
  | nil =>
    rw [List.nil_append, lastValue, lastValue_none key post hp]
    simp [he, hk]
  | cons a pre ih =>
    rw [List.cons_append, lastValue, ih]

theorem Quote_locations (tbl : Char → Bool) :
    Quote tbl InPath = "\"path\"".toList ∧ Quote tbl InQuery = "\"query\"".toList ∧
    Quote tbl InHeader = "\"header\"".toList ∧ Quote tbl InRequest = "\"request\"".toList := by
  refine ⟨?_, ?_, ?_, ?_⟩ <;>
  · rw [Quote_plain tbl _ (fun c hc => isWord_plain tbl c (by revert c; decide))]
    rfl

theorem locationError_eq (tbl : Char → Bool) (v : Str) :
    locationError tbl v =
      "invalid location value: ".toList ++ v ++
        " (must be \"path\", \"query\", \"header\" or \"request\")".toList := by
  obtain ⟨h1, h2, h3, h4⟩ := Quote_locations tbl
  unfold locationError
  rw [h1, h2, h3, h4]
  simp

/-! ## More facts about trimming and splitting -/

theorem dropWhile_of_head (p : Char → Bool) (s : Str) (h : ∀ c ∈ s.head?, p c = false) :
    s.dropWhile p = s := by
  cases s with
  | nil => rfl
  | cons a s =>
    have := h a (by simp)
    rw [List.dropWhile_cons_of_neg (by simp [this])]

theorem TrimSpace_of_ends (s : Str) (h1 : ∀ c ∈ s.head?, isSpace c = false)
    (h2 : ∀ c ∈ s.getLast?, isSpace c = false) : TrimSpace s = s := by
  unfold TrimSpace
  rw [dropWhile_of_head isSpace s h1, dropWhile_of_head isSpace s.reverse, List.reverse_reverse]
  rw [List.head?_reverse]
  exact h2

theorem TrimSpace_eq_nil_iff (s : Str) : TrimSpace s = [] ↔ ∀ c ∈ s, isSpace c = true := by
  unfold TrimSpace
  rw [List.reverse_eq_nil_iff, List.dropWhile_eq_nil_iff]
  constructor
  · intro h
    have hd : s.dropWhile isSpace = [] := by
      cases hd : s.dropWhile isSpace with
      | nil => rfl
      | cons a d =>
        exfalso
        have h1 := dropWhile_head_not isSpace s a (by rw [hd]; simp)
        have h2 := h a (by rw [hd]; simp)
        rw [h1] at h2
        cases h2
    exact List.dropWhile_eq_nil_iff.1 hd
  · intro h
    have hd : s.dropWhile isSpace = [] := List.dropWhile_eq_nil_iff.2 h
    rw [hd]
    simp

theorem TrimSpace_cons_space (c : Char) (s : Str) (h : isSpace c = true) :
    TrimSpace (c :: s) = TrimSpace s := by
  unfold TrimSpace
  rw [List.dropWhile_cons_of_pos h]

theorem TrimSpace_append_space (s : Str) (c : Char) (h : isSpace c = true) :
    TrimSpace (s ++ [c]) = TrimSpace s := by
  unfold TrimSpace
  rw [List.dropWhile_append]
  cases hd : s.dropWhile isSpace with
  | nil => simp [h]
  | cons a d =>
    simp only [List.isEmpty_cons, Bool.false_eq_true, if_false]
    rw [List.reverse_append, List.reverse_singleton, List.singleton_append,
      List.dropWhile_cons_of_pos h]

theorem TrimSpace_subset (s : Str) : ∀ c ∈ TrimSpace s, c ∈ s := by
  intro c hc
  unfold TrimSpace at hc
  rw [List.mem_reverse] at hc
  have h1 := (List.dropWhile_sublist isSpace).subset hc
  rw [List.mem_reverse] at h1
  exact (List.dropWhile_sublist isSpace).subset h1

theorem splitBy_of_free (p : Char → Bool) (s : Str) (h : ∀ c ∈ s, p c = false) :
    splitBy p s = [s] := by
  induction s with
  | nil => rfl
  | cons c cs ih =>
    rw [splitBy, ih (fun x hx => h x (List.mem_cons_of_mem _ hx))]
    simp [h c (List.mem_cons_self _ _)]

theorem splitBy_subset (p : Char → Bool) (s : Str) :
    ∀ x ∈ splitBy p s, ∀ c ∈ x, c ∈ s := by
  induction s with
  | nil => simp [splitBy]
  | cons c cs ih =>
    unfold splitBy
    by_cases hc : p c = true
    · simp only [hc, if_true]
      intro x hx d hd
      rcases List.mem_cons.1 hx with rfl | hx
      · cases hd
      · exact List.mem_cons_of_mem _ (ih x hx d hd)
    · simp only [hc, if_false, Bool.false_eq_true]
      cases hs : splitBy p cs with
      | nil => simp
      | cons h t =>
        rw [hs] at ih
        intro x hx d hd
        rcases List.mem_cons.1 hx with rfl | hx
        · rcases List.mem_cons.1 hd with rfl | hd
          · exact List.mem_cons_self _ _
          · exact List.mem_cons_of_mem _ (ih h (List.mem_cons_self _ _) d hd)
        · exact List.mem_cons_of_mem _ (ih x (List.mem_cons_of_mem _ hx) d hd)

/-- Splitting a concatenation: the last piece of the left part and the first
piece of the right part are joined. -/
theorem splitBy_append (p : Char → Bool) (a b : Str) :
    ∀ (init : List Str) (last h : Str) (t : List Str),
      splitBy p a = init ++ [last] → splitBy p b = h :: t →
      splitBy p (a ++ b) = init ++ (last ++ h) :: t := by
  induction a with
  | nil =>
    intro init last h t ha hb
    have : init = [] ∧ last = [] := by
      cases init with
      | nil => simpa [splitBy] using ha.symm
      | cons i init =>
        simp [splitBy] at ha
    rw [this.1, this.2]
    simpa using hb
  | cons d a ih =>
    intro init last h t ha hb
    have hne := splitBy_ne_nil p a
    rw [List.cons_append]
    unfold splitBy at ha ⊢
    by_cases hd : p d = true
    · simp only [hd, if_true] at ha ⊢
      cases init with
      | nil =>
        simp only [List.nil_append, List.cons.injEq] at ha
        exact absurd ha.2 hne
      | cons i init =>
        simp only [List.cons_append, List.cons.injEq] at ha
        rw [ih init last h t ha.2 hb, ← ha.1]
        rfl
    · simp only [hd, if_false, Bool.false_eq_true] at ha ⊢
      cases hs : splitBy p a with
      | nil => exact absurd hs hne
      | cons x xs =>
        rw [hs] at ha
        simp only at ha
        cases init with
        | nil =>
          simp only [List.nil_append, List.cons.injEq] at ha
          have hx : splitBy p a = [] ++ [x] := by rw [hs, ha.2]; rfl
          rw [ih [] x h t hx hb, ← ha.1]
          rfl
        | cons i init =>
          simp only [List.cons_append, List.cons.injEq] at ha
          have hx : splitBy p a = (x :: init) ++ [last] := by rw [hs, ha.2]; rfl
          rw [ih (x :: init) last h t hx hb, ← ha.1]
          rfl

theorem splitBy_append_sep (p : Char → Bool) (a b : Str) (c : Char) (hc : p c = true) :
    splitBy p (a ++ c :: b) = splitBy p a ++ splitBy p b := by
  obtain ⟨init, last, hi⟩ : ∃ init last, splitBy p a = init ++ [last] := by
    rcases List.eq_nil_or_concat (splitBy p a) with h | ⟨init, last, h⟩
    · exact absurd h (splitBy_ne_nil p a)
    · exact ⟨init, last, by rw [h]; simp⟩
  have hb : splitBy p (c :: b) = [] :: splitBy p b := by
    rw [splitBy]; simp [hc]
  rw [splitBy_append p a (c :: b) init last [] (splitBy p b) hi hb, hi]
  simp

/-! ## A directive with one binding and one option group -/

theorem Fields_of_free (g : Str) (hne : g ≠ []) (h : ∀ c ∈ g, isSpace c = false) :
    Fields g = [g] := by
  unfold Fields
  rw [splitBy_of_free isSpace g h]
  cases g with
  | nil => exact absurd rfl hne
  | cons a g => rfl

theorem Fields_two (u w : Str) (hu : u ≠ []) (hw : w ≠ [])
    (h1 : ∀ c ∈ u, isSpace c = false) (h2 : ∀ c ∈ w, isSpace c = false) :
    Fields (u ++ ' ' :: w) = [u, w] := by
  unfold Fields
  rw [splitBy_append_sep isSpace u w ' ' (by decide), splitBy_of_free isSpace u h1,
    splitBy_of_free isSpace w h2]
  cases u with
  | nil => exact absurd rfl hu
  | cons a u =>
    cases w with
    | nil => exact absurd rfl hw
    | cons b w => rfl

theorem token_of_append (k v : Str) (hk : '=' ∉ k) :
    '=' ∈ k ++ '=' :: v ∧ tokenKey (k ++ '=' :: v) = k ∧ tokenValue (k ++ '=' :: v) = v := by
  have hp : ∀ c ∈ k, (fun c => c != '=') c = true := by
    intro c hc
    have : c ≠ '=' := fun e => hk (e ▸ hc)
    simpa using this
  refine ⟨by simp, ?_, ?_⟩
  · unfold tokenKey
    rw [List.takeWhile_append_of_pos hp]
    simp
  · unfold tokenValue
    rw [List.dropWhile_append_of_pos hp]
    simp

/-- The directive `a <group>`, where the group is not blank, begins and ends
with a character that is not white space and has no `;`, `,` or line feed:
its result is the result of `parseOption` on the group, in one Binding `a`. -/
theorem ParseParams_single (tbl : Char → Bool) (g : Str) (hne : g ≠ [])
    (hh : ∀ c ∈ g.head?, isSpace c = false) (hl : ∀ c ∈ g.getLast?, isSpace c = false)
    (hc : ∀ c ∈ g, c ≠ ';' ∧ c ≠ ',' ∧ c ≠ '\n') :
    ParseParams tbl ('a' :: ' ' :: g) =
      match parseOption tbl ['a'] g with
      | .error e => .error e
      | .ok p => .ok [{ ArgName := ['a'], Params := [p] }] := by
  have hg : TrimSpace g = g := TrimSpace_of_ends g hh hl
  have hs : TrimSpace ('a' :: ' ' :: g) = 'a' :: ' ' :: g := by
    apply TrimSpace_of_ends
    · intro c hc; simp at hc; subst hc; decide
    · cases g with
      | nil => exact absurd rfl hne
      | cons b g =>
        intro c hc
        rw [List.getLast?_cons_cons, List.getLast?_cons_cons] at hc
        exact hl c hc
  have hsg : TrimSpace (' ' :: g) = g := by
    rw [TrimSpace_cons_space ' ' g (by decide), hg]
  have hsplit : Split ('a' :: ' ' :: g) ';' = ['a' :: ' ' :: g] := by
    unfold Split
    apply splitBy_of_free
    intro c hc'
    simp only [List.mem_cons] at hc'
    rcases hc' with rfl | rfl | hc'
    · decide
    · decide
    · simpa using (hc c hc').1
  have hgsplit : Split g ',' = [g] := by
    unfold Split
    apply splitBy_of_free
    intro c hc'
    simpa using (hc c hc').2.1
  have hre : reKokParam ('a' :: ' ' :: g) = some (['a'], ' ' :: g) := by
    rw [reKokParam_eq]
    have h1 : isWord 'a' = true := by decide
    have h2 : isWord ' ' = false := by decide
    have h3 : ((' ' :: g).all isDot) = true := by
      rw [List.all_eq_true]
      intro c hc'
      rcases List.mem_cons.1 hc' with rfl | hc'
      · decide
      · have := (hc c hc').2.2
        unfold isDot
        have hn : c.toNat ≠ 10 := toNat_ne_of_ne c 10 this
        simpa using hn
    rw [List.takeWhile_cons_of_pos h1, List.takeWhile_cons_of_neg (by simp [h2]),
      List.dropWhile_cons_of_pos h1, List.dropWhile_cons_of_neg (by simp [h2])]
    rw [if_pos ⟨by simp, h3⟩]
  have hpp : parseParam tbl ('a' :: ' ' :: g) =
      match parseOption tbl ['a'] g with
      | .error e => .error e
      | .ok p => .ok { ArgName := ['a'], Params := [p] } := by
    unfold parseParam
    simp only [hs, hre, hsg, if_neg hne]
    unfold ParseParamOptions
    rw [hgsplit]
    simp only [parseGroups, hg]
    cases parseOption tbl ['a'] g with
    | error e => rfl
    | ok p => rfl
  unfold ParseParams
  simp only [hs]
  rw [if_neg (by simp), hsplit]
  simp only [parseSegments, hpp]
  cases parseOption tbl ['a'] g with
  | error e => rfl
  | ok p => rfl

theorem getLast?_mem (l : Str) : ∀ c ∈ l.getLast?, c ∈ l := by
  induction l with
  | nil => simp
  | cons a l ih =>
    intro c hc
    cases l with
    | nil =>
      simp only [List.getLast?_singleton, Option.mem_def, Option.some.injEq] at hc
      subst hc
      exact List.mem_cons_self _ _
    | cons b l =>
      rw [List.getLast?_cons_cons] at hc
      exact List.mem_cons_of_mem _ (ih c hc)

theorem getLast?_append_cons_mem (k : Str) (x : Char) (v : Str) :
    ∀ c ∈ (k ++ x :: v).getLast?, c ∈ x :: v := by
  induction k with
  | nil => exact getLast?_mem (x :: v)
  | cons a k ih =>
    intro c hc
    cases k with
    | nil =>
      rw [List.cons_append, List.nil_append, List.getLast?_cons_cons] at hc
      exact getLast?_mem (x :: v) c hc
    | cons b k =>
      rw [List.cons_append, List.cons_append, List.getLast?_cons_cons] at hc
      exact ih c hc

theorem lastValue_single (key t : Str) :
    lastValue key [t] = if '=' ∈ t ∧ tokenKey t = key then some (tokenValue t) else none := by
  rfl

/-- A group made of the single token `k=v`, for a recognised key other than
`in` and a value without white space, parses to the Parameter the
specification assigns to it. -/
theorem parseOption_single (tbl : Char → Bool) (argName k v : Str)
    (hk : ∀ c ∈ k, isSpace c = false ∧ c ≠ '=') (hv : ∀ c ∈ v, isSpace c = false)
    (hkk : k ∈ knownKeys) (hin : k ≠ "in".toList) :
    parseOption tbl argName (k ++ '=' :: v) = .ok (specParameter [k ++ '=' :: v]) := by
  have hfree : ∀ c ∈ k ++ '=' :: v, isSpace c = false := by
    intro c hc
    rcases List.mem_append.1 hc with h | h
    · exact (hk c h).1
    · rcases List.mem_cons.1 h with rfl | h
      · decide
      · exact hv c h
  have hne : k ++ '=' :: v ≠ [] := by simp
  obtain ⟨h1, h2, h3⟩ := token_of_append k v (fun h => (hk _ h).2 rfl)
  rw [parseOption_eq_spec, TrimSpace_eq_self _ hfree, Fields_of_free _ hne hfree]
  have hw : ∀ t ∈ [k ++ '=' :: v], wellFormed t := by
    intro t ht
    rw [List.mem_singleton.1 ht]
    exact ⟨h1, by rw [h2]; exact hkk, fun h => absurd (h2 ▸ h) hin⟩
  rw [specOption_of_wf tbl argName _ hw]
  have hi : effIn [k ++ '=' :: v] = [] := by
    unfold effIn
    rw [lastValue_single, h2, if_neg (fun h => hin h.2)]
    rfl
  rw [if_neg]
  rw [hi]
  intro h
  exact absurd h.1 (by decide)

/-- The directive `a k=v` for a recognised key other than `in` and a value
with no white space, `,` or `;`. -/
theorem ParseParams_single_key (tbl : Char → Bool) (k v : Str) (hk0 : k ≠ [])
    (hk : ∀ c ∈ k, isWord c = true) (hv : ∀ c ∈ v, isSpace c = false ∧ c ≠ ',' ∧ c ≠ ';')
    (hkk : k ∈ knownKeys) (hin : k ≠ "in".toList) :
    ParseParams tbl ('a' :: ' ' :: (k ++ '=' :: v)) =
      .ok [{ ArgName := ['a'], Params := [specParameter [k ++ '=' :: v]] }] := by
  have hkw : ∀ c ∈ k, isSpace c = false ∧ c ≠ '=' ∧ c ≠ ';' ∧ c ≠ ',' ∧ c ≠ '\n' := by
    intro c hc
    have h := hk c hc
    refine ⟨?_, ?_, ?_, ?_, ?_⟩
    · cases hs : isSpace c with
      | false => rfl
      | true =>
        exfalso
        unfold isWord at h
        unfold isSpace at hs
        simp only [Bool.or_eq_true, Bool.and_eq_true, decide_eq_true_eq, beq_iff_eq] at h hs
        omega
    all_goals
      rintro rfl
      revert h
      decide
  have hnl : ∀ c : Char, isSpace c = false → c ≠ '\n' := by
    intro c h
    rintro rfl
    revert h
    decide
  have hg := ParseParams_single tbl (k ++ '=' :: v) (by simp)
    (by
      cases k with
      | nil => exact absurd rfl hk0
      | cons a k =>
        intro c hc
        simp only [List.cons_append, List.head?_cons, Option.mem_def, Option.some.injEq] at hc
        subst hc
        exact (hkw _ (List.mem_cons_self _ _)).1)
    (by
      intro c hc
      rcases List.mem_cons.1 (getLast?_append_cons_mem k '=' v c hc) with rfl | h
      · decide
      · exact (hv c h).1)
    (by
      intro c hc
      rcases List.mem_append.1 hc with h | h
      · exact ⟨(hkw c h).2.2.1, (hkw c h).2.2.2.1, (hkw c h).2.2.2.2⟩
      · rcases List.mem_cons.1 h with rfl | h
        · decide
        · exact ⟨(hv c h).2.2, (hv c h).2.1, hnl c (hv c h).1⟩)
  rw [hg, parseOption_single tbl ['a'] k v (fun c hc => ⟨(hkw c hc).1, (hkw c hc).2.1⟩)
    (fun c hc => (hv c hc).1) hkk hin]

/-! ## Which error is which -/

theorem dropWhile_getLast? (p : Char → Bool) (l : Str) :
    ∀ c ∈ (l.dropWhile p).getLast?, c ∈ l.getLast? := by
  induction l with
  | nil => simp
  | cons a l ih =>
    intro c hc
    by_cases ha : p a = true
    · rw [List.dropWhile_cons_of_pos ha] at hc
      have h1 := ih c hc
      cases l with
      | nil => simp at h1
      | cons b l => rw [List.getLast?_cons_cons]; exact h1
    · rw [List.dropWhile_cons_of_neg ha] at hc
      exact hc

theorem TrimSpace_idem (s : Str) : TrimSpace (TrimSpace s) = TrimSpace s := by
  apply TrimSpace_of_ends
  · intro c hc
    unfold TrimSpace at hc
    rw [List.head?_reverse] at hc
    have h1 := dropWhile_getLast? isSpace _ c hc
    rw [List.getLast?_reverse] at h1
    exact dropWhile_head_not isSpace s c h1
  · intro c hc
    unfold TrimSpace at hc
    rw [List.getLast?_reverse] at hc
    exact dropWhile_head_not isSpace _ c hc

theorem specOption_error_ne (tbl : Char → Bool) (argName : Str) (toks : List Str) (e m : Str)
    (h : specOption tbl argName toks = .error e) :
    e ≠ "invalid directive arguments: ".toList ++ m := by
  unfold specOption at h
  split at h
  · injection h with h
    rw [← h]
    unfold tokenError locationError
    split_ifs <;> simp
  · split_ifs at h
    injection h with h
    rw [← h]
    unfold requestError
    simp

theorem reKokParam_none_iff (t : Str) :
    reKokParam t = none ↔ ((∀ c ∈ t.head?, isWord c = false) ∨ '\n' ∈ t) := by
  rw [reKokParam_eq]
  have hw : t.takeWhile isWord = [] ↔ ∀ c ∈ t.head?, isWord c = false := by
    cases t with
    | nil => simp
    | cons a t =>
      by_cases ha : isWord a = true
      · simp [List.takeWhile_cons, ha]
      · simp [List.takeWhile_cons, ha]
  have hd : (t.dropWhile isWord).all isDot = true ↔ '\n' ∉ t := by
    rw [List.all_eq_true]
    constructor
    · intro h hm
      rw [← List.takeWhile_append_dropWhile isWord t] at hm
      rcases List.mem_append.1 hm with h1 | h1
      · have := List.mem_takeWhile_imp h1
        revert this
        decide
      · have := h _ h1
        revert this
        decide
    · intro h c hc
      unfold isDot
      have hc1 : c ≠ '\n' := by
        rintro rfl
        exact h ((List.dropWhile_sublist isWord).subset hc)
      have := toNat_ne_of_ne c 10 hc1
      simpa using this
  by_cases h1 : t.takeWhile isWord = []
  · rw [if_neg (fun h => h.1 h1)]
    exact ⟨fun _ => Or.inl (hw.1 h1), fun _ => rfl⟩
  · by_cases h2 : (t.dropWhile isWord).all isDot = true
    · rw [if_pos ⟨h1, h2⟩]
      have h3 := hd.1 h2
      have h4 : ¬ ∀ c ∈ t.head?, isWord c = false := fun h => h1 (hw.2 h)
      simp only [false_iff, not_or, reduceCtorEq]
      exact ⟨h4, h3⟩
    · rw [if_neg (fun h => h2 h.2)]
      have h3 : '\n' ∈ t := by
        by_contra hn
        exact h2 (hd.2 hn)
      simp [h3]

theorem forall₂_mem_left {α β : Type} {R : α → β → Prop} {l1 : List α} {l2 : List β}
    (h : List.Forall₂ R l1 l2) : ∀ a ∈ l1, ∃ b ∈ l2, R a b := by
  induction h with
  | nil => simp
  | cons hab _ ih =>
    intro a ha
    rcases List.mem_cons.1 ha with rfl | ha
    · exact ⟨_, List.mem_cons_self _ _, hab⟩
    · obtain ⟨b, hb, hr⟩ := ih a ha
      exact ⟨b, List.mem_cons_of_mem _ hb, hr⟩

theorem specOption_nil (tbl : Char → Bool) (argName : Str) :
    specOption tbl argName [] = .ok { In := InQuery } := by
  rfl

/-! ## Trimming the input does not change the trimmed segments -/

theorem splitBy_map_trim_cons (p : Char → Bool) (c : Char) (x : Str)
    (hc : isSpace c = true) (hp : p c = false) :
    (splitBy p (c :: x)).map TrimSpace = (splitBy p x).map TrimSpace := by
  rw [splitBy]
  simp only [hp, Bool.false_eq_true, if_false]
  cases hs : splitBy p x with
  | nil => exact absurd hs (splitBy_ne_nil p x)
  | cons h t => simp [TrimSpace_cons_space c h hc]

theorem splitBy_map_trim_concat (p : Char → Bool) (c : Char) (x : Str)
    (hc : isSpace c = true) (hp : p c = false) :
    (splitBy p (x ++ [c])).map TrimSpace = (splitBy p x).map TrimSpace := by
  obtain ⟨init, last, hi⟩ : ∃ init last, splitBy p x = init ++ [last] := by
    rcases List.eq_nil_or_concat (splitBy p x) with h | ⟨init, last, h⟩
    · exact absurd h (splitBy_ne_nil p x)
    · exact ⟨init, last, by rw [h]; simp⟩
  have hb : splitBy p [c] = [c] :: [] := by
    simp [splitBy, hp]
  rw [splitBy_append p x [c] init last [c] [] hi hb, hi]
  simp [TrimSpace_append_space last c hc]

theorem splitBy_map_trim_left (p : Char → Bool) (hp : ∀ c, isSpace c = true → p c = false)
    (x : Str) :
    (splitBy p (x.dropWhile isSpace)).map TrimSpace = (splitBy p x).map TrimSpace := by
  induction x with
  | nil => rfl
  | cons c x ih =>
    by_cases hc : isSpace c = true
    · rw [List.dropWhile_cons_of_pos hc, ih, splitBy_map_trim_cons p c x hc (hp c hc)]
    · rw [List.dropWhile_cons_of_neg hc]

theorem splitBy_map_trim_right (p : Char → Bool) (hp : ∀ c, isSpace c = true → p c = false)
    (w : Str) (hw : ∀ c ∈ w, isSpace c = true) :
    ∀ y : Str, (splitBy p (y ++ w)).map TrimSpace = (splitBy p y).map TrimSpace := by
  induction w with
  | nil => intro y; simp
  | cons c w ih =>
    intro y
    have hc := hw c (List.mem_cons_self _ _)
    have : y ++ c :: w = (y ++ [c]) ++ w := by simp
    rw [this, ih (fun d hd => hw d (List.mem_cons_of_mem _ hd)) (y ++ [c]),
      splitBy_map_trim_concat p c y hc (hp c hc)]

theorem splitBy_map_trim (p : Char → Bool) (hp : ∀ c, isSpace c = true → p c = false)
    (x : Str) :
    (splitBy p (TrimSpace x)).map TrimSpace = (splitBy p x).map TrimSpace := by
  have ht : TrimSpace x = ((x.dropWhile isSpace).reverse.dropWhile isSpace).reverse := rfl
  rw [← splitBy_map_trim_left p hp x, ht]
  generalize x.dropWhile isSpace = y
  have hsplit : y = (y.reverse.dropWhile isSpace).reverse ++
      (y.reverse.takeWhile isSpace).reverse := by
    rw [← List.reverse_append, List.takeWhile_append_dropWhile, List.reverse_reverse]
  have hw : ∀ c ∈ (y.reverse.takeWhile isSpace).reverse, isSpace c = true := by
    intro c hc
    rw [List.mem_reverse] at hc
    exact List.mem_takeWhile_imp hc
  have := splitBy_map_trim_right p hp _ hw (y.reverse.dropWhile isSpace).reverse
  rw [← hsplit] at this
  exact this.symm

theorem space_ne_semicolon : ∀ c, isSpace c = true → (fun c => c == ';') c = false := by
  intro c hc
  have : c ≠ ';' := by
    rintro rfl
    revert hc
    decide
  simpa using this

theorem Split_map_trim (x : Str) :
    (Split (TrimSpace x) ';').map TrimSpace = (Split x ';').map TrimSpace :=
  splitBy_map_trim _ space_ne_semicolon x

theorem parseParam_trim (tbl : Char → Bool) (x : Str) :
    parseParam tbl (TrimSpace x) = parseParam tbl x := by
  unfold parseParam
  simp only [TrimSpace_idem]

theorem collect_map_trim (tbl : Char → Bool) (l : List Str) :
    ∀ acc, collect (parseParam tbl) acc (l.map TrimSpace) = collect (parseParam tbl) acc l := by
  induction l with
  | nil => intro acc; rfl
  | cons a l ih =>
    intro acc
    rw [List.map_cons, collect, collect, parseParam_trim]
    cases parseParam tbl a with
    | error e => rfl
    | ok b => exact ih _

theorem collect_append {α β : Type} (f : α → Except Str β) (l1 l2 : List α) :
    ∀ acc, collect f acc (l1 ++ l2) =
      match collect f acc l1 with
      | .error e => .error e
      | .ok r => collect f r l2 := by
  induction l1 with
  | nil => intro acc; rfl
  | cons a l1 ih =>
    intro acc
    rw [List.cons_append, collect, collect]
    cases f a with
    | error e => rfl
    | ok b => exact ih _

theorem collect_acc {α β : Type} (f : α → Except Str β) (l : List α) (acc r : List β) :
    collect f acc l = .ok r ↔ ∃ bs, collect f [] l = .ok bs ∧ r = acc ++ bs := by
  rw [collect_ok_iff]
  constructor
  · rintro ⟨bs, h1, h2⟩
    exact ⟨bs, (collect_ok_iff f l [] bs).2 ⟨bs, by simp, h2⟩, h1⟩
  · rintro ⟨bs, h1, h2⟩
    obtain ⟨bs1, h3, h4⟩ := (collect_ok_iff f l [] bs).1 h1
    simp only [List.nil_append] at h3
    subst h3
    exact ⟨bs, h2, h4⟩

/-- The success of `ParseParams` and its result, read off the `;`-separated
pieces of the input itself: trimming the input first changes nothing. -/
theorem ParseParams_ok_untrimmed (tbl : Char → Bool) (s : Str) (l : List Param) :
    ParseParams tbl s = .ok l ↔ collect (parseParam tbl) [] (Split s ';') = .ok l := by
  rw [← collect_map_trim tbl (Split s ';'), ← Split_map_trim, collect_map_trim]
  unfold ParseParams
  by_cases h : TrimSpace s = []
  · simp only [h, if_true]
    have : collect (parseParam tbl) [] (Split [] ';') =
        .error ("invalid directive arguments: ".toList) := by
      rfl
    rw [this]
    constructor <;> intro hc <;> cases hc
  · simp only [h, if_false]
    rw [parseSegments_eq]

theorem ParseParams_append (tbl : Char → Bool) (s1 s2 : Str) (l : List Param) :
    ParseParams tbl (s1 ++ ';' :: s2) = .ok l ↔
      ∃ l1 l2, ParseParams tbl s1 = .ok l1 ∧ ParseParams tbl s2 = .ok l2 ∧ l = l1 ++ l2 := by
  rw [ParseParams_ok_untrimmed]
  simp only [ParseParams_ok_untrimmed]
  unfold Split
  rw [splitBy_append_sep _ s1 s2 ';' (by simp), collect_append]
  cases h1 : collect (parseParam tbl) [] (splitBy (fun c => c == ';') s1) with
  | error e =>
    simp only
    constructor
    · intro h; cases h
    · rintro ⟨l1, l2, h, -, -⟩; cases h
  | ok r =>
    simp only
    rw [collect_acc]
    constructor
    · rintro ⟨bs, h2, h3⟩
      exact ⟨r, bs, rfl, h2, h3⟩
    · rintro ⟨l1, l2, h2, h3, h4⟩
      injection h2 with h2
      subst h2
      exact ⟨l2, h3, h4⟩

/-! ## Token order -/

theorem lastValue_eq_some_iff (key : Str) (toks : List Str) (hd : distinctKeys toks) (v : Str) :
    lastValue key toks = some v ↔
      ∃ t ∈ toks, '=' ∈ t ∧ tokenKey t = key ∧ tokenValue t = v := by
  constructor
  · exact lastValue_mem key toks v
  · induction toks with
    | nil => simp
    | cons a rest ih =>
      unfold distinctKeys at hd
      rw [List.pairwise_cons] at hd
      rintro ⟨t, ht, he, hk, hv⟩
      rw [lastValue]
      rcases List.mem_cons.1 ht with rfl | ht
      · cases hr : lastValue key rest with
        | some w =>
          exfalso
          obtain ⟨x, hx, hxe, hxk, -⟩ := lastValue_mem key rest w hr
          exact hd.1 x hx he hxe (by rw [hk, hxk])
        | none =>
          simp only
          rw [if_pos ⟨he, hk⟩, hv]
      · rw [ih hd.2 ⟨t, ht, he, hk, hv⟩]

theorem lastValue_perm (key : Str) (toks1 toks2 : List Str) (hp : toks1.Perm toks2)
    (hd : distinctKeys toks1) : lastValue key toks1 = lastValue key toks2 := by
  have hd2 : distinctKeys toks2 := by
    unfold distinctKeys at hd ⊢
    exact hp.pairwise hd (fun h hb ha e => h ha hb e.symm)
  have key1 : ∀ v, lastValue key toks1 = some v ↔ lastValue key toks2 = some v := by
    intro v
    rw [lastValue_eq_some_iff key toks1 hd, lastValue_eq_some_iff key toks2 hd2]
    constructor
    · rintro ⟨t, ht, h⟩
      exact ⟨t, hp.mem_iff.1 ht, h⟩
    · rintro ⟨t, ht, h⟩
      exact ⟨t, hp.mem_iff.2 ht, h⟩
  cases h1 : lastValue key toks1 with
  | some v => exact ((key1 v).1 h1).symm
  | none =>
    cases h2 : lastValue key toks2 with
    | some w =>
      have := (key1 w).2 h2
      rw [h1] at this
      cases this
    | none => rfl

theorem specOption_perm (tbl : Char → Bool) (argName : Str) (toks1 toks2 : List Str)
    (hp : toks1.Perm toks2) (hd : distinctKeys toks1) (hw : ∀ t ∈ toks1, wellFormed t) :
    specOption tbl argName toks1 = specOption tbl argName toks2 := by
  have hw2 : ∀ t ∈ toks2, wellFormed t := fun t ht => hw t (hp.mem_iff.2 ht)
  rw [specOption_of_wf tbl argName toks1 hw, specOption_of_wf tbl argName toks2 hw2]
  have hl : ∀ key, lastValue key toks1 = lastValue key toks2 := fun key =>
    lastValue_perm key toks1 toks2 hp hd
  have h1 : effIn toks1 = effIn toks2 := by unfold effIn; rw [hl]
  have h2 : effName toks1 = effName toks2 := by unfold effName; rw [hl]
  have h3 : specParameter toks1 = specParameter toks2 := by
    unfold specParameter effRequired
    rw [h1, h2, hl, hl, hl]
  rw [h1, h2, h3]

/-! ## Where the characters of a value come from -/

theorem tokenValue_subset (t : Str) : ∀ c ∈ tokenValue t, c ∈ t := by
  intro c hc
  unfold tokenValue at hc
  exact (List.dropWhile_sublist _).subset (List.mem_of_mem_tail hc)

theorem lastValue_getD_subset (key : Str) (toks : List Str) :
    ∀ c ∈ (lastValue key toks).getD [], ∃ t ∈ toks, c ∈ t := by
  intro c hc
  cases h : lastValue key toks with
  | none => rw [h] at hc; cases hc
  | some v =>
    rw [h, Option.getD_some] at hc
    obtain ⟨t, ht, -, -, hv⟩ := lastValue_mem key toks v h
    exact ⟨t, ht, tokenValue_subset t c (hv ▸ hc)⟩

theorem Fields_subset (x : Str) : ∀ t ∈ Fields x, ∀ c ∈ t, isSpace c = false ∧ c ∈ x := by
  intro t ht c hc
  refine ⟨(Fields_free x t ht).2 c hc, ?_⟩
  unfold Fields at ht
  exact splitBy_subset isSpace x t (List.mem_filter.1 ht).1 c hc

theorem parseOption_chars (tbl : Char → Bool) (argName g : Str) (p : Parameter)
    (h : parseOption tbl argName g = .ok p) :
    ∀ c, (c ∈ p.Name ∨ c ∈ p.Typ ∨ c ∈ p.Description) → isSpace c = false ∧ c ∈ g := by
  rw [parseOption_eq_spec] at h
  obtain ⟨-, -, h3⟩ := specOption_ok tbl argName _ p h
  subst h3
  intro c hc
  have : ∃ t ∈ Fields (TrimSpace g), c ∈ t := by
    unfold specParameter effName at hc
    rcases hc with hc | hc | hc
    · exact lastValue_getD_subset _ _ c hc
    · exact lastValue_getD_subset _ _ c hc
    · exact lastValue_getD_subset _ _ c hc
  obtain ⟨t, ht, hct⟩ := this
  obtain ⟨h1, h2⟩ := Fields_subset _ t ht c hct
  exact ⟨h1, TrimSpace_subset g c h2⟩

theorem ParseParamOptions_chars (tbl : Char → Bool) (argName s : Str) (l : List Parameter)
    (h : ParseParamOptions tbl argName s = .ok l) :
    ∀ p ∈ l, ∀ c, (c ∈ p.Name ∨ c ∈ p.Typ ∨ c ∈ p.Description) →
      isSpace c = false ∧ c ≠ ',' ∧ c ∈ s := by
  intro p hp c hc
  obtain ⟨x, hx, hxp⟩ := ParseParamOptions_mem tbl argName s l h p hp
  obtain ⟨h1, h2⟩ := parseOption_chars tbl argName _ p hxp c hc
  have h3 := TrimSpace_subset x c h2
  refine ⟨h1, ?_, splitBy_subset _ s x hx c h3⟩
  rintro rfl
  exact Split_free s ',' x hx h3

/-! ## The claims -/

/-- C1: when `ParseParams` succeeds, the result has exactly one Binding per
`;`-separated segment of the trimmed input, that is the number of `;` in it
plus one, and the i-th Binding is what `parseParam` returns on the i-th
segment.  The segments are the pieces `strings.Split` cuts: they contain no
`;` and joined by `;` they give the trimmed input back. -/
theorem C1_ParseParams_segments (tbl : Char → Bool) (s : Str) (l : List Param)
    (h : ParseParams tbl s = .ok l) :
    l.length = (TrimSpace s).count ';' + 1 ∧
    (Split (TrimSpace s) ';').length = l.length ∧
    (∀ (i : Nat) (h1 : i < (Split (TrimSpace s) ';').length) (h2 : i < l.length),
      parseParam tbl (Split (TrimSpace s) ';')[i] = .ok l[i]) ∧
    [';'].intercalate (Split (TrimSpace s) ';') = TrimSpace s ∧
    ∀ seg ∈ Split (TrimSpace s) ';', ';' ∉ seg := by
  obtain ⟨-, hf⟩ := (ParseParams_ok_iff tbl s l).1 h
  have hlen := hf.length_eq
  refine ⟨?_, hlen, ?_, Split_intercalate _ _, Split_free _ _⟩
  · rw [← hlen, Split_length]
  · intro i h1 h2
    exact hf.get h1 h2

/-- C1, witness: the directive `a required=false; b in=header` gives two
Bindings in order, `a` with one Parameter in `query` that is not required and
`b` with one Parameter in `header` that is not required. -/
theorem C1_ParseParams_segments_witness :
    ParseParams (fun _ => false) "a required=false; b in=header".toList =
      .ok [{ ArgName := "a".toList, Params := [{ In := InQuery, Required := false }] },
           { ArgName := "b".toList, Params := [{ In := InHeader, Required := false }] }] ∧
    (Split (TrimSpace "a required=false; b in=header".toList) ';').length = 2 :=
  ⟨by decide,
   (C1_ParseParams_segments (fun _ => false) "a required=false; b in=header".toList
      [{ ArgName := "a".toList, Params := [{ In := InQuery, Required := false }] },
       { ArgName := "b".toList, Params := [{ In := InHeader, Required := false }] }]
      (by decide)).2.1⟩

/-- C2: `ParseParams` fails with the message `empty //kok:param` exactly when
the input is empty after trimming white space, and on an input that is not
empty after trimming a successful result is a non-empty list. -/
theorem C2_empty_input (tbl : Char → Bool) (s : Str) :
    (ParseParams tbl s = .error "empty //kok:param".toList ↔ TrimSpace s = []) ∧
    (TrimSpace s ≠ [] → ∀ l, ParseParams tbl s = .ok l → l ≠ []) := by
  constructor
  · constructor
    · intro h
      by_contra hne
      obtain ⟨pre, seg, post, -, -, hseg⟩ := (ParseParams_error_iff tbl s _ hne).1 h
      rcases parseParam_error_head tbl seg _ hseg with h1 | h1
      · revert h1; decide
      · revert h1; decide
    · intro h
      unfold ParseParams
      simp [h]
  · intro _ l hl hnil
    have := ((ParseParams_ok_iff tbl s l).1 hl).2.length_eq
    rw [hnil, Split_length] at this
    simp at this

/-- C2, witness: a blank input fails with the empty-input message, and the
input `a` is not empty after trimming and its result has one Binding. -/
theorem C2_empty_input_witness :
    ParseParams (fun _ => false) " ".toList = .error "empty //kok:param".toList ∧
    ∀ l, ParseParams (fun _ => false) " a ".toList = .ok l → l ≠ [] :=
  ⟨(C2_empty_input (fun _ => false) " ".toList).1.2 (by decide),
   (C2_empty_input (fun _ => false) " a ".toList).2 (by decide)⟩

/-- C3: on an input that is not empty after trimming, `ParseParams` fails
exactly when `parseParam` fails on some `;`-separated segment, and the error
it returns is the error of the leftmost failing segment (every segment before
it parses).  A failing call carries an error and no list at all. -/
theorem C3_fail_fast (tbl : Char → Bool) (s : Str) (hne : TrimSpace s ≠ []) :
    ((∃ e, ParseParams tbl s = .error e) ↔
      ∃ seg ∈ Split (TrimSpace s) ';', ∃ e, parseParam tbl seg = .error e) ∧
    (∀ e, ParseParams tbl s = .error e ↔
      ∃ pre seg post, Split (TrimSpace s) ';' = pre ++ seg :: post ∧
        (∀ x ∈ pre, ∃ p, parseParam tbl x = .ok p) ∧ parseParam tbl seg = .error e) ∧
    (∀ e, ParseParams tbl s = .error e → ∀ l, ParseParams tbl s ≠ .ok l) := by
  refine ⟨?_, fun e => ParseParams_error_iff tbl s e hne, ?_⟩
  · constructor
    · rintro ⟨e, he⟩
      obtain ⟨pre, seg, post, h1, -, h3⟩ := (ParseParams_error_iff tbl s e hne).1 he
      exact ⟨seg, by rw [h1]; simp, e, h3⟩
    · rintro ⟨seg, hseg, e, he⟩
      cases hp : ParseParams tbl s with
      | error e1 => exact ⟨e1, rfl⟩
      | ok l =>
        exfalso
        obtain ⟨-, hf⟩ := (ParseParams_ok_iff tbl s l).1 hp
        obtain ⟨i, hi, rfl⟩ := List.mem_iff_getElem.1 hseg
        have := hf.get hi (hf.length_eq ▸ hi)
        simp only [List.get_eq_getElem] at this
        rw [he] at this
        cases this
  · intro e he l hl
    rw [he] at hl
    cases hl

/-- C3, witness: in `a; b x=1; c y` the second segment is the first that
fails, and the whole call fails with its error. -/
theorem C3_fail_fast_witness :
    ParseParams (fun _ => false) "a; b x=1; c y".toList =
      .error "invalid directive argument: x=1".toList :=
  ((C3_fail_fast (fun _ => false) "a; b x=1; c y".toList (by decide)).2.1
    "invalid directive argument: x=1".toList).2
    ⟨["a".toList], " b x=1".toList, [" c y".toList], by decide,
      fun x hx => ⟨{ ArgName := "a".toList }, by rw [List.mem_singleton.1 hx]; decide⟩,
      by decide⟩

/-- C4: when the trimmed segment does not begin with a word character (an
ASCII letter, a digit or the underscore), `parseParam` fails with `invalid
directive arguments: ` followed by the trimmed segment; and when `parseParam`
returns a Binding, its `ArgName` is not empty, has only word characters and is
the longest leading run of word characters of the trimmed segment (the segment
is the name followed by a rest that does not begin with a word character).
So every Binding of a successful `ParseParams` has an `ArgName` matching
`\w+`. -/
theorem C4_ArgName_identifier (tbl : Char → Bool) (s : Str) :
    ((∀ c rest, TrimSpace s = c :: rest → isWord c = false) →
      parseParam tbl s = .error ("invalid directive arguments: ".toList ++ TrimSpace s)) ∧
    (∀ b, parseParam tbl s = .ok b →
      b.ArgName ≠ [] ∧ (∀ c ∈ b.ArgName, isWord c = true) ∧
      b.ArgName = (TrimSpace s).takeWhile isWord ∧
      ∃ rest, TrimSpace s = b.ArgName ++ rest ∧ ∀ c ∈ rest.head?, isWord c = false) ∧
    (∀ l, ParseParams tbl s = .ok l →
      ∀ b ∈ l, b.ArgName ≠ [] ∧ ∀ c ∈ b.ArgName, isWord c = true) := by
  have key : ∀ (seg : Str) (b : Param), parseParam tbl seg = .ok b →
      b.ArgName ≠ [] ∧ (∀ c ∈ b.ArgName, isWord c = true) ∧
      b.ArgName = (TrimSpace seg).takeWhile isWord ∧
      ∃ rest, TrimSpace seg = b.ArgName ++ rest ∧ ∀ c ∈ rest.head?, isWord c = false := by
    intro seg b hb
    obtain ⟨h1, h2, -⟩ := parseParam_ok tbl seg b hb
    refine ⟨by rw [h2]; exact h1, ?_, h2, (TrimSpace seg).dropWhile isWord, ?_,
      dropWhile_head_not isWord _⟩
    · intro c hc
      rw [h2] at hc
      exact List.mem_takeWhile_imp hc
    · rw [h2, List.takeWhile_append_dropWhile]
  refine ⟨?_, key s, ?_⟩
  · intro h
    have hw : (TrimSpace s).takeWhile isWord = [] := by
      cases ht : TrimSpace s with
      | nil => rfl
      | cons c rest =>
        have := h c rest ht
        rw [List.takeWhile_cons_of_neg (by simp [this])]
    unfold parseParam
    simp only
    rw [reKokParam_eq, if_neg (fun hc => hc.1 hw)]
  · intro l hl b hb
    obtain ⟨seg, -, hseg⟩ := ParseParams_mem tbl s l hl b hb
    obtain ⟨h1, h2, -⟩ := key seg b hseg
    exact ⟨h1, h2⟩

/-- C4, witness: `-a in=path` does not begin with a word character and fails
with the invalid-directive message, while ` ab_1 in=path` gives the name
`ab_1`. -/
theorem C4_ArgName_identifier_witness :
    parseParam (fun _ => false) " -a in=path ".toList =
      .error "invalid directive arguments: -a in=path".toList ∧
    "ab_1".toList = (TrimSpace " ab_1 in=path".toList).takeWhile isWord :=
  ⟨(C4_ArgName_identifier (fun _ => false) " -a in=path ".toList).1
      (by intro c rest h; injection h with h1 _; rw [← h1]; decide),
   ((C4_ArgName_identifier (fun _ => false) " ab_1 in=path".toList).2.1
      { ArgName := "ab_1".toList, Params := [{ In := InPath, Required := true }] }
      (by decide)).2.2.1⟩

/-- C5: when `ParseParamOptions` succeeds, the result has exactly one Parameter
per `,`-separated group of the option text, that is the number of `,` in it
plus one, and the i-th Parameter is what `parseOption` returns on the i-th
group after trimming.  `ParseParamOptions` fails exactly when some group
fails, and then its error is the error of the leftmost failing group and no
Parameter is returned. -/
theorem C5_ParseParamOptions_groups (tbl : Char → Bool) (argName s : Str) :
    (∀ l, ParseParamOptions tbl argName s = .ok l →
      l.length = s.count ',' + 1 ∧ (Split s ',').length = l.length ∧
      ∀ (i : Nat) (h1 : i < (Split s ',').length) (h2 : i < l.length),
        parseOption tbl argName (TrimSpace (Split s ',')[i]) = .ok l[i]) ∧
    ((∃ e, ParseParamOptions tbl argName s = .error e) ↔
      ∃ g ∈ Split s ',', ∃ e, parseOption tbl argName (TrimSpace g) = .error e) ∧
    (∀ e, ParseParamOptions tbl argName s = .error e ↔
      ∃ pre g post, Split s ',' = pre ++ g :: post ∧
        (∀ x ∈ pre, ∃ p, parseOption tbl argName (TrimSpace x) = .ok p) ∧
        parseOption tbl argName (TrimSpace g) = .error e) := by
  refine ⟨?_, ?_, fun e => ParseParamOptions_error_iff tbl argName s e⟩
  · intro l hl
    have hf := (ParseParamOptions_ok_iff tbl argName s l).1 hl
    have hlen := hf.length_eq
    refine ⟨by rw [← hlen, Split_length], hlen, ?_⟩
    intro i h1 h2
    exact hf.get h1 h2
  · constructor
    · rintro ⟨e, he⟩
      obtain ⟨pre, g, post, h1, -, h3⟩ := (ParseParamOptions_error_iff tbl argName s e).1 he
      exact ⟨g, by rw [h1]; simp, e, h3⟩
    · rintro ⟨g, hg, e, he⟩
      cases hp : ParseParamOptions tbl argName s with
      | error e1 => exact ⟨e1, rfl⟩
      | ok l =>
        exfalso
        have hf := (ParseParamOptions_ok_iff tbl argName s l).1 hp
        obtain ⟨i, hi, rfl⟩ := List.mem_iff_getElem.1 hg
        have := hf.get hi (hf.length_eq ▸ hi)
        simp only [List.get_eq_getElem] at this
        rw [he] at this
        cases this

/-- C5, witness: `in=path, in=header name=X` has one comma and gives two
Parameters in order. -/
theorem C5_ParseParamOptions_groups_witness :
    ParseParamOptions (fun _ => false) "a".toList "in=path, in=header name=X".toList =
      .ok [{ In := InPath, Required := true }, { In := InHeader, Name := "X".toList }] ∧
    ([{ In := InPath, Required := true }, { In := InHeader, Name := "X".toList }] :
      List Parameter).length = "in=path, in=header name=X".toList.count ',' + 1 :=
  ⟨by decide,
   ((C5_ParseParamOptions_groups (fun _ => false) "a".toList
      "in=path, in=header name=X".toList).1 _ (by decide)).1⟩

/-- C6: `parseOption` reads the white-space separated tokens of a group from
left to right and cuts each at its first `=` only.  When every earlier token
is well formed, a token without `=` makes it fail with `invalid parameter
pair: ` and the token, and a token whose key is none of `in`, `name`,
`required`, `type`, `descr` makes it fail with `invalid directive argument: `
and the token.  It succeeds exactly when every token has an `=` and a
recognised key, every `in` value is one of the four locations, and the
request-field rule holds for the effective location and name. -/
theorem C6_token_errors (tbl : Char → Bool) (argName s : Str) :
    (∀ t : Str, '=' ∈ t → t = tokenKey t ++ '=' :: tokenValue t ∧ '=' ∉ tokenKey t) ∧
    (∀ pre t post, Fields (TrimSpace s) = pre ++ t :: post → (∀ x ∈ pre, wellFormed x) →
      '=' ∉ t →
      parseOption tbl argName s = .error ("invalid parameter pair: ".toList ++ t)) ∧
    (∀ pre t post, Fields (TrimSpace s) = pre ++ t :: post → (∀ x ∈ pre, wellFormed x) →
      '=' ∈ t → tokenKey t ∉ knownKeys →
      parseOption tbl argName s = .error ("invalid directive argument: ".toList ++ t)) ∧
    ((∃ p, parseOption tbl argName s = .ok p) ↔
      (∀ t ∈ Fields (TrimSpace s), '=' ∈ t ∧ tokenKey t ∈ knownKeys ∧
        (tokenKey t = "in".toList → tokenValue t ∈ locations)) ∧
      (effIn (Fields (TrimSpace s)) = InRequest →
        effName (Fields (TrimSpace s)) = "RemoteAddr".toList)) := by
  refine ⟨token_split, ?_, ?_, ?_⟩
  · intro pre t post hf hw he
    have hb : ¬ wellFormed t := fun h => he h.1
    rw [parseOption_eq_spec, hf, specOption_of_bad tbl argName pre t post hw hb]
    unfold tokenError
    rw [if_pos he]
  · intro pre t post hf hw he hk
    have hb : ¬ wellFormed t := fun h => hk h.2.1
    rw [parseOption_eq_spec, hf, specOption_of_bad tbl argName pre t post hw hb]
    unfold tokenError
    rw [if_neg (not_not.2 he), if_neg hk]
  · rw [parseOption_eq_spec]
    constructor
    · rintro ⟨p, hp⟩
      obtain ⟨h1, h2, -⟩ := specOption_ok tbl argName _ p hp
      exact ⟨h1, h2⟩
    · rintro ⟨h1, h2⟩
      rw [specOption_of_wf tbl argName _ h1]
      by_cases hr : effIn (Fields (TrimSpace s)) = InRequest
      · rw [if_neg (fun hc => hc.2 (h2 hr))]
        exact ⟨_, rfl⟩
      · rw [if_neg (fun hc => hr hc.1)]
        exact ⟨_, rfl⟩

/-- C6, witness: the group `x=1` fails with the unknown-option message, so
does the directive `a x=1`, and the token `descr=a=b` is cut at its first `=`. -/
theorem C6_token_errors_witness :
    parseOption (fun _ => false) "a".toList "x=1".toList =
      .error "invalid directive argument: x=1".toList ∧
    ParseParams (fun _ => false) "a x=1".toList =
      .error "invalid directive argument: x=1".toList ∧
    "descr=a=b".toList = tokenKey "descr=a=b".toList ++ '=' :: tokenValue "descr=a=b".toList :=
  ⟨(C6_token_errors (fun _ => false) "a".toList "x=1".toList).2.2.1
      [] "x=1".toList [] (by decide) (by simp) (by decide) (by decide),
   by decide,
   ((C6_token_errors (fun _ => false) "a".toList "x=1".toList).1 "descr=a=b".toList
      (by decide)).1⟩

/-- C7: every Parameter of a successful `parseOption`, `ParseParamOptions` or
`ParseParams` whose `In` is `path` has `Required = true`, whatever `required`
token its group had. -/
theorem C7_path_forces_required (tbl : Char → Bool) :
    (∀ argName s p, parseOption tbl argName s = .ok p → p.In = InPath → p.Required = true) ∧
    (∀ argName s l, ParseParamOptions tbl argName s = .ok l →
      ∀ p ∈ l, p.In = InPath → p.Required = true) ∧
    (∀ s l, ParseParams tbl s = .ok l →
      ∀ b ∈ l, ∀ p ∈ b.Params, p.In = InPath → p.Required = true) := by
  have key : ∀ argName s p, parseOption tbl argName s = .ok p → p.In = InPath →
      p.Required = true := by
    intro argName s p hp hin
    rw [parseOption_eq_spec] at hp
    obtain ⟨-, -, h3⟩ := specOption_ok tbl argName _ p hp
    subst h3
    unfold specParameter at hin ⊢
    simp only at hin ⊢
    have hq : InQuery ≠ InPath := by decide
    split_ifs at hin with h0
    · exact absurd hin hq
    · simp [hin]
  refine ⟨key, ?_, ?_⟩
  · intro argName s l hl p hp
    obtain ⟨g, -, hg⟩ := ParseParamOptions_mem tbl argName s l hl p hp
    exact key _ _ _ hg
  · intro s l hl b hb p hp
    obtain ⟨g, hg⟩ := ParseParams_param tbl s l hl b hb p hp
    exact key _ _ _ hg

/-- C7, witness: `a in=path` gives one Binding with one Parameter in `path`
that is required and has an empty name, and `a in=path required=false` gives
a required Parameter too. -/
theorem C7_path_forces_required_witness :
    ParseParams (fun _ => false) "a in=path".toList =
      .ok [{ ArgName := "a".toList,
             Params := [{ In := InPath, Name := [], Required := true }] }] ∧
    ParseParams (fun _ => false) "a in=path required=false".toList =
      .ok [{ ArgName := "a".toList,
             Params := [{ In := InPath, Name := [], Required := true }] }] ∧
    ({ In := InPath, Name := [], Required := true } : Parameter).Required = true :=
  ⟨by decide, by decide,
   (C7_path_forces_required (fun _ => false)).1 "a".toList "in=path required=false".toList
      { In := InPath, Name := [], Required := true } (by decide) rfl⟩

/-- C8: for an argument name, which is an identifier of word characters, and a
group whose tokens are all well formed and whose effective location is
`request`, `parseOption` succeeds only if (indeed exactly when) the effective
name is `RemoteAddr`; for any other name, the empty one included, it fails
with `argument "<argName>" tries to extract value from request.<Name>, but
only request.RemoteAddr is available` (with the back quotes of the source),
which names the argument and the field.  For a name that is not an identifier
the text between the quotes is the name as `%q` prints it.  Hence every
Parameter of a successful result with `In = request` has
`Name = RemoteAddr`. -/
theorem C8_request_field (tbl : Char → Bool) :
    (∀ argName s, (∀ t ∈ Fields (TrimSpace s), wellFormed t) →
      effIn (Fields (TrimSpace s)) = InRequest →
      ((∃ p, parseOption tbl argName s = .ok p) ↔
        effName (Fields (TrimSpace s)) = "RemoteAddr".toList) ∧
      (effName (Fields (TrimSpace s)) ≠ "RemoteAddr".toList →
        (∀ c ∈ argName, isWord c = true) →
        parseOption tbl argName s =
          .error ("argument \"".toList ++ argName ++
            "\" tries to extract value from `request.".toList ++
            effName (Fields (TrimSpace s)) ++
            "`, but only `request.RemoteAddr` is available".toList)) ∧
      (effName (Fields (TrimSpace s)) ≠ "RemoteAddr".toList →
        parseOption tbl argName s =
          .error ("argument ".toList ++ Quote tbl argName ++
            " tries to extract value from `request.".toList ++
            effName (Fields (TrimSpace s)) ++
            "`, but only `request.RemoteAddr` is available".toList))) ∧
    (∀ argName s p, parseOption tbl argName s = .ok p → p.In = InRequest →
      p.Name = "RemoteAddr".toList) ∧
    (∀ argName s l, ParseParamOptions tbl argName s = .ok l →
      ∀ p ∈ l, p.In = InRequest → p.Name = "RemoteAddr".toList) ∧
    (∀ s l, ParseParams tbl s = .ok l →
      ∀ b ∈ l, ∀ p ∈ b.Params, p.In = InRequest → p.Name = "RemoteAddr".toList) := by
  have key : ∀ argName s p, parseOption tbl argName s = .ok p → p.In = InRequest →
      p.Name = "RemoteAddr".toList := by
    intro argName s p hp hin
    rw [parseOption_eq_spec] at hp
    obtain ⟨-, h2, h3⟩ := specOption_ok tbl argName _ p hp
    subst h3
    unfold specParameter at hin ⊢
    simp only at hin ⊢
    have hq : InQuery ≠ InRequest := by decide
    split_ifs at hin with h0
    · exact absurd hin hq
    · exact h2 hin
  refine ⟨?_, key, ?_, ?_⟩
  · intro argName s hw hr
    rw [parseOption_eq_spec, specOption_of_wf tbl argName _ hw]
    by_cases hn : effName (Fields (TrimSpace s)) = "RemoteAddr".toList
    · rw [if_neg (fun hc => hc.2 hn)]
      exact ⟨⟨fun _ => hn, fun _ => ⟨_, rfl⟩⟩, fun h => absurd hn h, fun h => absurd hn h⟩
    · rw [if_pos ⟨hr, hn⟩]
      refine ⟨⟨?_, fun h => absurd h hn⟩, ?_, fun _ => rfl⟩
      · rintro ⟨p, hp⟩
        cases hp
      · intro _ hword
        unfold requestError
        rw [Quote_plain tbl argName (fun c hc => isWord_plain tbl c (hword c hc))]
        simp
  · intro argName s l hl p hp
    obtain ⟨g, -, hg⟩ := ParseParamOptions_mem tbl argName s l hl p hp
    exact key _ _ _ hg
  · intro s l hl b hb p hp
    obtain ⟨g, hg⟩ := ParseParams_param tbl s l hl b hb p hp
    exact key _ _ _ hg

/-- C8, witness: `a in=request name=RemoteAddr` succeeds with `In = request`
and `Name = RemoteAddr`, and `a in=request name=Foo` fails with a message that
names `a` and `Foo`. -/
theorem C8_request_field_witness :
    ParseParams (fun _ => false) "a in=request name=RemoteAddr".toList =
      .ok [{ ArgName := "a".toList,
             Params := [{ In := InRequest, Name := "RemoteAddr".toList }] }] ∧
    ParseParams (fun _ => false) "a in=request name=Foo".toList =
      .error ("argument \"a\" tries to extract value from `request.Foo`, ".toList ++
        "but only `request.RemoteAddr` is available".toList) ∧
    parseOption (fun _ => false) "a".toList "in=request name=Foo".toList =
      .error ("argument \"".toList ++ "a".toList ++
        "\" tries to extract value from `request.".toList ++
        effName (Fields (TrimSpace "in=request name=Foo".toList)) ++
        "`, but only `request.RemoteAddr` is available".toList) :=
  ⟨by decide, by decide,
   ((C8_request_field (fun _ => false)).1 "a".toList "in=request name=Foo".toList
      (by decide) (by decide)).2.1 (by decide) (by decide)⟩

/-- C9: a group with no `in` token that parses successfully gives a Parameter
with `In = query` whose `Required` is not forced: it is what the `required`
tokens gave, true exactly when the last of them has the value `true`, and
false when there is none. -/
theorem C9_default_query (tbl : Char → Bool) (argName s : Str) (p : Parameter)
    (hno : ∀ t ∈ Fields (TrimSpace s), tokenKey t ≠ "in".toList)
    (h : parseOption tbl argName s = .ok p) :
    p.In = InQuery ∧
    (p.Required = true ↔
      lastValue "required".toList (Fields (TrimSpace s)) = some "true".toList) ∧
    ((∀ t ∈ Fields (TrimSpace s), tokenKey t ≠ "required".toList) → p.Required = false) := by
  rw [parseOption_eq_spec] at h
  obtain ⟨-, -, h3⟩ := specOption_ok tbl argName _ p h
  subst h3
  have hin : effIn (Fields (TrimSpace s)) = [] := by
    unfold effIn
    rw [lastValue_none _ _ hno]
    rfl
  have hp : ([] : Str) ≠ InPath := by decide
  unfold specParameter
  simp only [hin, if_true]
  refine ⟨trivial, ?_, ?_⟩
  · unfold effRequired
    simp [hp]
  · intro hr
    unfold effRequired
    rw [lastValue_none _ _ hr]
    simp [hp]

/-- C9, witness: the group `required=false` has no `in` token and gives
`In = query`, `Required = false`. -/
theorem C9_default_query_witness :
    parseOption (fun _ => false) "a".toList "required=false".toList =
      .ok { In := InQuery, Required := false } ∧
    ({ In := InQuery, Required := false } : Parameter).In = InQuery :=
  ⟨by decide,
   (C9_default_query (fun _ => false) "a".toList "required=false".toList
      { In := InQuery, Required := false } (by decide) (by decide)).1⟩

/-- C10: every Parameter of a successful `parseOption`, `ParseParamOptions` or
`ParseParams` has an `In` that is one of `path`, `query`, `header`, `request`,
so it is never empty and never `cookie`; and a group with the token `in=`,
whose value is empty, is rejected. -/
theorem C10_In_valid (tbl : Char → Bool) :
    (∀ v ∈ locations, (v = "path".toList ∨ v = "query".toList ∨ v = "header".toList ∨
      v = "request".toList) ∧ v ≠ [] ∧ v ≠ "cookie".toList) ∧
    (∀ argName s p, parseOption tbl argName s = .ok p → p.In ∈ locations) ∧
    (∀ argName s l, ParseParamOptions tbl argName s = .ok l → ∀ p ∈ l, p.In ∈ locations) ∧
    (∀ s l, ParseParams tbl s = .ok l → ∀ b ∈ l, ∀ p ∈ b.Params, p.In ∈ locations) ∧
    (∀ argName s, "in=".toList ∈ Fields (TrimSpace s) →
      ∀ p, parseOption tbl argName s ≠ .ok p) := by
  have key : ∀ argName s p, parseOption tbl argName s = .ok p → p.In ∈ locations := by
    intro argName s p hp
    rw [parseOption_eq_spec] at hp
    obtain ⟨h1, -, h3⟩ := specOption_ok tbl argName _ p hp
    subst h3
    exact specParameter_In _ h1
  refine ⟨by decide, key, ?_, ?_, ?_⟩
  · intro argName s l hl p hp
    obtain ⟨g, -, hg⟩ := ParseParamOptions_mem tbl argName s l hl p hp
    exact key _ _ _ hg
  · intro s l hl b hb p hp
    obtain ⟨g, hg⟩ := ParseParams_param tbl s l hl b hb p hp
    exact key _ _ _ hg
  · intro argName s hmem p hp
    rw [parseOption_eq_spec] at hp
    obtain ⟨h1, -, -⟩ := specOption_ok tbl argName _ p hp
    have := (h1 _ hmem).2.2 (by decide)
    revert this
    decide

/-- C10, witness: `a in=header` gives a Parameter in `header`, one of the four
locations, and the group `in=` does not parse. -/
theorem C10_In_valid_witness :
    InHeader ∈ locations ∧
    ∀ p, parseOption (fun _ => false) "a".toList "name=x in=".toList ≠ .ok p :=
  ⟨(C10_In_valid (fun _ => false)).2.1 "a".toList "in=header".toList
      { In := InHeader } (by decide),
   (C10_In_valid (fun _ => false)).2.2.2.2 "a".toList "name=x in=".toList (by decide)⟩

/-- C11, counterexample: the group `required=true required=false` parses with
the location `query`, which is not `path`, and it contains a `required` token
whose value is exactly `true`, yet the resulting `Required` is false. -/
theorem C11_required_literal_counterexample :
    parseOption (fun _ => false) "a".toList "required=true required=false".toList =
      .ok { In := InQuery, Required := false } ∧
    InQuery ≠ InPath ∧
    "required=true".toList ∈ Fields (TrimSpace "required=true required=false".toList) ∧
    tokenKey "required=true".toList = "required".toList ∧
    tokenValue "required=true".toList = "true".toList := by
  decide

/-- C11, amended: for a group that parses successfully with a location other
than `path`, `Required` is true exactly when the last `required` token of the
group has the value `true`, letter for letter; any other value of that token
(`false`, `1`, `True`, the empty string) gives false, and so does a group with
no `required` token. -/
theorem C11_required_literal (tbl : Char → Bool) (argName s : Str) (p : Parameter)
    (h : parseOption tbl argName s = .ok p) (hp : p.In ≠ InPath) :
    (p.Required = true ↔
      lastValue "required".toList (Fields (TrimSpace s)) = some "true".toList) ∧
    (∀ pre t post, Fields (TrimSpace s) = pre ++ t :: post →
      tokenKey t = "required".toList → (∀ x ∈ post, tokenKey x ≠ "required".toList) →
      (p.Required = true ↔ tokenValue t = "true".toList)) ∧
    ((∀ t ∈ Fields (TrimSpace s), tokenKey t ≠ "required".toList) → p.Required = false) ∧
    (∀ v : Str, v = "false".toList ∨ v = "1".toList ∨ v = "True".toList ∨ v = [] →
      v ≠ "true".toList) := by
  rw [parseOption_eq_spec] at h
  obtain ⟨hw, -, h3⟩ := specOption_ok tbl argName _ p h
  subst h3
  have hin : effIn (Fields (TrimSpace s)) ≠ InPath := by
    intro hc
    apply hp
    unfold specParameter
    simp only [hc]
    rfl
  have hreq : (specParameter (Fields (TrimSpace s))).Required = true ↔
      lastValue "required".toList (Fields (TrimSpace s)) = some "true".toList := by
    unfold specParameter effRequired
    simp [hin]
  refine ⟨hreq, ?_, ?_, ?_⟩
  · intro pre t post hf hk hpost
    have he : '=' ∈ t := (hw t (by rw [hf]; simp)).1
    rw [hreq, hf, lastValue_last _ pre t post he hk hpost]
    simp
  · intro hno
    have := lastValue_none _ _ hno
    cases hr : (specParameter (Fields (TrimSpace s))).Required with
    | false => rfl
    | true =>
      rw [hreq.1 hr] at this
      cases this
  · intro v hv
    rcases hv with rfl | rfl | rfl | rfl <;> decide

/-- C11, witness: the group `in=header required=True` parses with the location
`header`, and its only `required` token has the value `True`, so `Required` is
false; with `required=true` it is true. -/
theorem C11_required_literal_witness :
    parseOption (fun _ => false) "a".toList "in=header required=True".toList =
      .ok { In := InHeader, Required := false } ∧
    parseOption (fun _ => false) "a".toList "in=header required=true".toList =
      .ok { In := InHeader, Required := true } ∧
    (({ In := InHeader, Required := false } : Parameter).Required = true ↔
      tokenValue "required=True".toList = "true".toList) :=
  ⟨by decide, by decide,
   (C11_required_literal (fun _ => false) "a".toList "in=header required=True".toList
      { In := InHeader, Required := false } (by decide) (by decide)).2.1
      ["in=header".toList] "required=True".toList [] (by decide) (by decide) (by simp)⟩

/-- C12: `validateLocation` returns no error exactly for `path`, `query`,
`header` and `request`, letter for letter; for any other value, `cookie` and
the empty string included, it returns `invalid location value: <v> (must be
"path", "query", "header" or "request")`, which lists the four accepted
values. -/
theorem C12_validateLocation (tbl : Char → Bool) (v : Str) :
    (validateLocation tbl v = none ↔
      (v = "path".toList ∨ v = "query".toList ∨ v = "header".toList ∨
        v = "request".toList)) ∧
    (¬ (v = "path".toList ∨ v = "query".toList ∨ v = "header".toList ∨
        v = "request".toList) →
      validateLocation tbl v =
        some ("invalid location value: ".toList ++ v ++
          " (must be \"path\", \"query\", \"header\" or \"request\")".toList)) ∧
    validateLocation tbl "cookie".toList ≠ none ∧
    validateLocation tbl [] ≠ none ∧
    validateLocation tbl "Path".toList ≠ none := by
  have hloc : ∀ w : Str, w ∈ locations ↔
      (w = "path".toList ∨ w = "query".toList ∨ w = "header".toList ∨
        w = "request".toList) := by
    intro w
    unfold locations
    simp only [List.mem_cons, List.mem_singleton, List.not_mem_nil, or_false]
    rfl
  have hnone : ∀ w : Str, validateLocation tbl w = none ↔ w ∈ locations := by
    intro w
    rw [validateLocation_eq]
    by_cases hw : w ∈ locations
    · simp [hw]
    · simp [hw]
  refine ⟨by rw [hnone, hloc], ?_, ?_, ?_, ?_⟩
  · intro hv
    rw [validateLocation_eq, if_neg (fun h => hv ((hloc v).1 h)), locationError_eq]
  · rw [ne_eq, hnone]; decide
  · rw [ne_eq, hnone]; decide
  · rw [ne_eq, hnone]; decide

/-- C12, witness: `a in=cookie` makes `ParseParams` fail with the
invalid-location message for the value `cookie`. -/
theorem C12_validateLocation_witness :
    ParseParams (fun _ => false) "a in=cookie".toList =
      .error ("invalid location value: cookie ".toList ++
        "(must be \"path\", \"query\", \"header\" or \"request\")".toList) ∧
    validateLocation (fun _ => false) "cookie".toList =
      some ("invalid location value: ".toList ++ "cookie".toList ++
        " (must be \"path\", \"query\", \"header\" or \"request\")".toList) :=
  ⟨by decide,
   (C12_validateLocation (fun _ => false) "cookie".toList).2.1 (by decide)⟩

/-- C13: for a value `v` with no white space, no `,` and no `;` (it may be
empty and may hold `=` characters), the directives `a type=v`, `a descr=v` and
`a name=v` each succeed with the single Binding `a` and a single Parameter in
`query` whose `Type`, `Description` or `Name` is `v`, unchanged, every other
field being its zero value. -/
theorem C13_values_verbatim (tbl : Char → Bool) (v : Str)
    (hv : ∀ c ∈ v, isSpace c = false ∧ c ≠ ',' ∧ c ≠ ';') :
    ParseParams tbl ("a type=".toList ++ v) =
      .ok [{ ArgName := "a".toList, Params := [{ In := InQuery, Typ := v }] }] ∧
    ParseParams tbl ("a descr=".toList ++ v) =
      .ok [{ ArgName := "a".toList, Params := [{ In := InQuery, Description := v }] }] ∧
    ParseParams tbl ("a name=".toList ++ v) =
      .ok [{ ArgName := "a".toList, Params := [{ In := InQuery, Name := v }] }] := by
  refine ⟨?_, ?_, ?_⟩
  · have h := ParseParams_single_key tbl "type".toList v (by decide) (by decide) hv
      (by decide) (by decide)
    have hp : specParameter ["type".toList ++ '=' :: v] = { In := InQuery, Typ := v } := by
      obtain ⟨h1, h2, h3⟩ := token_of_append "type".toList v (by decide)
      unfold specParameter effIn effName effRequired
      simp only [lastValue_single, h1, h2, h3, true_and]
      simp
      decide
    rw [hp] at h
    exact h
  · have h := ParseParams_single_key tbl "descr".toList v (by decide) (by decide) hv
      (by decide) (by decide)
    have hp : specParameter ["descr".toList ++ '=' :: v] =
        { In := InQuery, Description := v } := by
      obtain ⟨h1, h2, h3⟩ := token_of_append "descr".toList v (by decide)
      unfold specParameter effIn effName effRequired
      simp only [lastValue_single, h1, h2, h3, true_and]
      simp
      decide
    rw [hp] at h
    exact h
  · have h := ParseParams_single_key tbl "name".toList v (by decide) (by decide) hv
      (by decide) (by decide)
    have hp : specParameter ["name".toList ++ '=' :: v] = { In := InQuery, Name := v } := by
      obtain ⟨h1, h2, h3⟩ := token_of_append "name".toList v (by decide)
      unfold specParameter effIn effName effRequired
      simp only [lastValue_single, h1, h2, h3, true_and]
      simp
      decide
    rw [hp] at h
    exact h

/-- C13, witness: the value `map[string]int=x=` holds `=` characters and is
stored whole as the `Type`. -/
theorem C13_values_verbatim_witness :
    ParseParams (fun _ => false) ("a type=".toList ++ "map[string]int=x=".toList) =
      .ok [{ ArgName := "a".toList,
             Params := [{ In := InQuery, Typ := "map[string]int=x=".toList }] }] :=
  (C13_values_verbatim (fun _ => false) "map[string]int=x=".toList (by decide)).1

/-- C14: when `parseParam` succeeds, the Binding has no Parameter exactly
when nothing but white space follows the leading identifier in the trimmed
segment; when anything else follows, it has at least one Parameter. -/
theorem C14_params_empty (tbl : Char → Bool) (s : Str) (b : Param)
    (h : parseParam tbl s = .ok b) :
    (b.Params = [] ↔ ∀ c ∈ (TrimSpace s).dropWhile isWord, isSpace c = true) ∧
    (¬ (∀ c ∈ (TrimSpace s).dropWhile isWord, isSpace c = true) → 1 ≤ b.Params.length) ∧
    TrimSpace s = b.ArgName ++ (TrimSpace s).dropWhile isWord := by
  obtain ⟨-, h2, h3⟩ := parseParam_ok tbl s b h
  have hlen : TrimSpace ((TrimSpace s).dropWhile isWord) ≠ [] → 1 ≤ b.Params.length := by
    intro hne
    rcases h3 with ⟨h4, -⟩ | ⟨-, h4⟩
    · exact absurd h4 hne
    · have := ((ParseParamOptions_ok_iff tbl _ _ _).1 h4).length_eq
      rw [Split_length] at this
      omega
  refine ⟨?_, ?_, by rw [h2, List.takeWhile_append_dropWhile]⟩
  · rw [← TrimSpace_eq_nil_iff]
    constructor
    · intro hp
      by_contra hne
      have := hlen hne
      rw [hp] at this
      simp at this
    · intro ht
      rcases h3 with ⟨-, h4⟩ | ⟨h4, -⟩
      · exact h4
      · exact absurd ht h4
  · intro hn
    apply hlen
    rw [ne_eq, TrimSpace_eq_nil_iff]
    exact hn

/-- C14, witness: the segment `a` gives the Binding `a` with no Parameter. -/
theorem C14_params_empty_witness :
    ParseParams (fun _ => false) "a".toList = .ok [{ ArgName := "a".toList, Params := [] }] ∧
    (({ ArgName := "a".toList, Params := [] } : Param).Params = [] ↔
      ∀ c ∈ (TrimSpace "a".toList).dropWhile isWord, isSpace c = true) :=
  ⟨by decide,
   (C14_params_empty (fun _ => false) "a".toList { ArgName := "a".toList, Params := [] }
      (by decide)).1⟩

/-- C15, counterexample: the segments `-a` and `a` line feed `b` are not empty
after trimming, yet `parseParam` fails on them with the invalid-directive
error. -/
theorem C15_invalid_directive_counterexample :
    TrimSpace "-a".toList ≠ [] ∧
    parseParam (fun _ => false) "-a".toList =
      .error "invalid directive arguments: -a".toList ∧
    TrimSpace "a\nb".toList ≠ [] ∧
    parseParam (fun _ => false) "a\nb".toList =
      .error "invalid directive arguments: a\nb".toList := by
  decide

/-- C15, amended: `parseParam` returns an error `invalid directive arguments:
...` exactly when the trimmed segment does not begin with a word character,
which is the case of the empty segment, or holds a line feed; the text after
the colon is then the trimmed segment. -/
theorem C15_invalid_directive (tbl : Char → Bool) (s : Str) :
    ((∃ m, parseParam tbl s = .error ("invalid directive arguments: ".toList ++ m)) ↔
      ((∀ c ∈ (TrimSpace s).head?, isWord c = false) ∨ '\n' ∈ TrimSpace s)) ∧
    (∀ m, parseParam tbl s = .error ("invalid directive arguments: ".toList ++ m) →
      m = TrimSpace s) ∧
    (TrimSpace s = [] → parseParam tbl s = .error "invalid directive arguments: ".toList) := by
  have key : ∀ m, parseParam tbl s = .error ("invalid directive arguments: ".toList ++ m) →
      reKokParam (TrimSpace s) = none ∧ m = TrimSpace s := by
    intro m hm
    unfold parseParam at hm
    simp only at hm
    cases hr : reKokParam (TrimSpace s) with
    | none =>
      rw [hr] at hm
      simp only [Except.error.injEq] at hm
      exact ⟨rfl, (List.append_cancel_left hm).symm⟩
    | some ar =>
      exfalso
      obtain ⟨argName, r2⟩ := ar
      rw [hr] at hm
      simp only at hm
      split_ifs at hm
      split at hm
      · rename_i e1 he1
        injection hm with hm
        subst hm
        obtain ⟨pre, g, post, -, -, hg⟩ := (ParseParamOptions_error_iff tbl _ _ _).1 he1
        rw [parseOption_eq_spec] at hg
        exact specOption_error_ne tbl _ _ _ m hg rfl
      · cases hm
  have hnone : reKokParam (TrimSpace s) = none →
      parseParam tbl s = .error ("invalid directive arguments: ".toList ++ TrimSpace s) := by
    intro hr
    unfold parseParam
    simp only [hr]
  refine ⟨?_, fun m hm => (key m hm).2, ?_⟩
  · rw [← reKokParam_none_iff]
    constructor
    · rintro ⟨m, hm⟩
      exact (key m hm).1
    · intro hr
      exact ⟨_, hnone hr⟩
  · intro ht
    have := hnone ((reKokParam_none_iff _).2 (Or.inl (by rw [ht]; simp)))
    rw [ht] at this
    simpa using this

/-- C15, witness: the blank segment fails with the invalid-directive error and
nothing after the colon. -/
theorem C15_invalid_directive_witness :
    parseParam (fun _ => false) "  ".toList = .error "invalid directive arguments: ".toList :=
  (C15_invalid_directive (fun _ => false) "  ".toList).2.2 (by decide)

/-- C16, counterexample: `a in=path,` succeeds; its option text has the two
groups `in=path` and the empty one, the empty group has no token at all, and
it is turned into a second Parameter, the default one.  So does
`ParseParamOptions` on the empty option text. -/
theorem C16_empty_group_counterexample :
    ParseParams (fun _ => false) "a in=path,".toList =
      .ok [{ ArgName := "a".toList,
             Params := [{ In := InPath, Required := true }, { In := InQuery }] }] ∧
    Split "in=path,".toList ',' = ["in=path".toList, []] ∧
    Fields (TrimSpace []) = [] ∧
    ParseParamOptions (fun _ => false) "a".toList [] = .ok [{ In := InQuery }] := by
  decide

/-- C16, amended: `ParseParams` does not require a pair in an option group.
On success, the option text of the i-th Binding is what follows the identifier
in the i-th trimmed segment, trimmed; when it is empty the Binding has no
Parameter, and otherwise its j-th `,`-separated group is turned into the j-th
Parameter, one for one, every token of a group being a well-formed
`key=value` pair.  A group with no token (after a trailing comma, or the empty
option text given to `ParseParamOptions`) is accepted and gives the default
Parameter, in `query`, with an empty name, not required. -/
theorem C16_empty_group (tbl : Char → Bool) :
    (∀ argName g, Fields (TrimSpace g) = [] →
      parseOption tbl argName g = .ok { In := InQuery }) ∧
    (∀ argName, ParseParamOptions tbl argName [] = .ok [{ In := InQuery }]) ∧
    (∀ argName opt l, ParseParamOptions tbl argName opt = .ok l →
      (Split opt ',').length = l.length ∧
      (∀ (j : Nat) (h1 : j < (Split opt ',').length) (h2 : j < l.length),
        parseOption tbl argName (TrimSpace (Split opt ',')[j]) = .ok l[j] ∧
        l[j] = specParameter (Fields (TrimSpace (Split opt ',')[j]))) ∧
      ∀ g ∈ Split opt ',', ∀ t ∈ Fields (TrimSpace g), wellFormed t) ∧
    (∀ s l, ParseParams tbl s = .ok l →
      ∀ (i : Nat) (hi1 : i < (Split (TrimSpace s) ';').length) (hi2 : i < l.length),
        TrimSpace (Split (TrimSpace s) ';')[i] =
          l[i].ArgName ++ (TrimSpace (Split (TrimSpace s) ';')[i]).dropWhile isWord ∧
        (TrimSpace ((TrimSpace (Split (TrimSpace s) ';')[i]).dropWhile isWord) = [] →
          l[i].Params = []) ∧
        (TrimSpace ((TrimSpace (Split (TrimSpace s) ';')[i]).dropWhile isWord) ≠ [] →
          ParseParamOptions tbl l[i].ArgName
            (TrimSpace ((TrimSpace (Split (TrimSpace s) ';')[i]).dropWhile isWord)) =
            .ok l[i].Params ∧
          (Split (TrimSpace ((TrimSpace (Split (TrimSpace s) ';')[i]).dropWhile isWord))
            ',').length = l[i].Params.length ∧
          (∀ (j : Nat)
            (h1 : j < (Split (TrimSpace ((TrimSpace
              (Split (TrimSpace s) ';')[i]).dropWhile isWord)) ',').length)
            (h2 : j < l[i].Params.length),
            parseOption tbl l[i].ArgName (TrimSpace (Split (TrimSpace ((TrimSpace
              (Split (TrimSpace s) ';')[i]).dropWhile isWord)) ',')[j]) =
              .ok l[i].Params[j] ∧
            l[i].Params[j] = specParameter (Fields (TrimSpace (Split (TrimSpace ((TrimSpace
              (Split (TrimSpace s) ';')[i]).dropWhile isWord)) ',')[j]))) ∧
          ∀ g ∈ Split (TrimSpace ((TrimSpace
              (Split (TrimSpace s) ';')[i]).dropWhile isWord)) ',',
            ∀ t ∈ Fields (TrimSpace g), wellFormed t)) := by
  have hopt : ∀ argName opt l, ParseParamOptions tbl argName opt = .ok l →
      (Split opt ',').length = l.length ∧
      (∀ (j : Nat) (h1 : j < (Split opt ',').length) (h2 : j < l.length),
        parseOption tbl argName (TrimSpace (Split opt ',')[j]) = .ok l[j] ∧
        l[j] = specParameter (Fields (TrimSpace (Split opt ',')[j]))) ∧
      ∀ g ∈ Split opt ',', ∀ t ∈ Fields (TrimSpace g), wellFormed t := by
    intro argName opt l hl
    have hf := (ParseParamOptions_ok_iff tbl argName opt l).1 hl
    refine ⟨hf.length_eq, ?_, ?_⟩
    · intro j h1 h2
      have hj := hf.get h1 h2
      simp only [List.get_eq_getElem] at hj
      refine ⟨hj, ?_⟩
      rw [parseOption_eq_spec, TrimSpace_idem] at hj
      exact (specOption_ok tbl argName _ _ hj).2.2
    · intro g hg
      obtain ⟨p, -, hp⟩ := forall₂_mem_left hf g hg
      rw [parseOption_eq_spec, TrimSpace_idem] at hp
      exact (specOption_ok tbl argName _ p hp).1
  refine ⟨?_, ?_, hopt, ?_⟩
  · intro argName g hg
    rw [parseOption_eq_spec, hg, specOption_nil]
  · intro argName
    rfl
  · intro s l hl i hi1 hi2
    have hseg := ((ParseParams_ok_iff tbl s l).1 hl).2.get hi1 hi2
    simp only [List.get_eq_getElem] at hseg
    obtain ⟨-, h2, h3⟩ := parseParam_ok tbl _ _ hseg
    refine ⟨by rw [h2, List.takeWhile_append_dropWhile], ?_, ?_⟩
    · intro h0
      rcases h3 with ⟨-, h4⟩ | ⟨h4, -⟩
      · exact h4
      · exact absurd h0 h4
    · intro hne
      rcases h3 with ⟨h4, -⟩ | ⟨-, h4⟩
      · exact absurd h4 hne
      · exact ⟨h4, hopt _ _ _ h4⟩

/-- C16, witness: a blank group gives the default Parameter, and in
`a in=path,` the option text of the Binding has two groups, the second of them
empty, and the Binding has two Parameters. -/
theorem C16_empty_group_witness :
    parseOption (fun _ => false) "a".toList " ".toList = .ok { In := InQuery } ∧
    (Split "in=path,".toList ',').length =
      ([{ In := InPath, Required := true }, { In := InQuery }] : List Parameter).length ∧
    (Split (TrimSpace ((TrimSpace (Split (TrimSpace "a in=path,".toList) ';')[0]).dropWhile
      isWord)) ',').length = 2 :=
  ⟨(C16_empty_group (fun _ => false)).1 "a".toList " ".toList (by decide),
   ((C16_empty_group (fun _ => false)).2.2.1 "a".toList "in=path,".toList
      [{ In := InPath, Required := true }, { In := InQuery }] (by decide)).1,
   (((C16_empty_group (fun _ => false)).2.2.2 "a in=path,".toList
      [{ ArgName := "a".toList,
         Params := [{ In := InPath, Required := true }, { In := InQuery }] }]
      (by decide) 0 (by decide) (by decide)).2.2 (by decide)).2.1⟩

/-- C17: `ParseParams` on `s1;s2` succeeds exactly when it succeeds on `s1`
and on `s2`, and its result is then the Bindings of `s1` followed by the
Bindings of `s2`. -/
theorem C17_semicolon_homomorphism (tbl : Char → Bool) (s1 s2 : Str) :
    ((∃ l, ParseParams tbl (s1 ++ ";".toList ++ s2) = .ok l) ↔
      (∃ l1, ParseParams tbl s1 = .ok l1) ∧ (∃ l2, ParseParams tbl s2 = .ok l2)) ∧
    (∀ l1 l2, ParseParams tbl s1 = .ok l1 → ParseParams tbl s2 = .ok l2 →
      ParseParams tbl (s1 ++ ";".toList ++ s2) = .ok (l1 ++ l2)) := by
  have hs : s1 ++ ";".toList ++ s2 = s1 ++ ';' :: s2 := by
    rw [List.append_assoc]; rfl
  rw [hs]
  constructor
  · constructor
    · rintro ⟨l, hl⟩
      obtain ⟨l1, l2, h1, h2, -⟩ := (ParseParams_append tbl s1 s2 l).1 hl
      exact ⟨⟨l1, h1⟩, ⟨l2, h2⟩⟩
    · rintro ⟨⟨l1, h1⟩, ⟨l2, h2⟩⟩
      exact ⟨l1 ++ l2, (ParseParams_append tbl s1 s2 _).2 ⟨l1, l2, h1, h2, rfl⟩⟩
  · intro l1 l2 h1 h2
    exact (ParseParams_append tbl s1 s2 _).2 ⟨l1, l2, h1, h2, rfl⟩

/-- C17, witness: `a in=path ` and ` b`, joined by a `;`, give the Binding of
the first followed by the Binding of the second. -/
theorem C17_semicolon_homomorphism_witness :
    ParseParams (fun _ => false) ("a in=path ".toList ++ ";".toList ++ " b".toList) =
      .ok ([{ ArgName := "a".toList, Params := [{ In := InPath, Required := true }] }] ++
        [{ ArgName := "b".toList, Params := [] }]) :=
  (C17_semicolon_homomorphism (fun _ => false) "a in=path ".toList " b".toList).2
    [{ ArgName := "a".toList, Params := [{ In := InPath, Required := true }] }]
    [{ ArgName := "b".toList, Params := [] }] (by decide) (by decide)

/-- C18: when the tokens of two option groups are permutations of each other
and their keys are pairwise distinct, `parseOption` succeeds on one group
exactly when it succeeds on the other, and on success both give the same
Parameter. -/
theorem C18_token_order (tbl : Char → Bool) (argName s1 s2 : Str)
    (hperm : (Fields (TrimSpace s1)).Perm (Fields (TrimSpace s2)))
    (hd : distinctKeys (Fields (TrimSpace s1))) :
    ((∃ p, parseOption tbl argName s1 = .ok p) ↔ (∃ p, parseOption tbl argName s2 = .ok p)) ∧
    (∀ p1 p2, parseOption tbl argName s1 = .ok p1 → parseOption tbl argName s2 = .ok p2 →
      p1 = p2) := by
  have hd2 : distinctKeys (Fields (TrimSpace s2)) := by
    unfold distinctKeys at hd ⊢
    exact hperm.pairwise hd (fun h hb ha e => h ha hb e.symm)
  have key : ∀ p, parseOption tbl argName s1 = .ok p ↔ parseOption tbl argName s2 = .ok p := by
    intro p
    rw [parseOption_eq_spec, parseOption_eq_spec]
    constructor
    · intro h
      have hw := (specOption_ok tbl argName _ p h).1
      rw [← specOption_perm tbl argName _ _ hperm hd hw]
      exact h
    · intro h
      have hw := (specOption_ok tbl argName _ p h).1
      rw [← specOption_perm tbl argName _ _ hperm.symm hd2 hw]
      exact h
  constructor
  · constructor
    · rintro ⟨p, hp⟩; exact ⟨p, (key p).1 hp⟩
    · rintro ⟨p, hp⟩; exact ⟨p, (key p).2 hp⟩
  · intro p1 p2 h1 h2
    rw [(key p1).1 h1] at h2
    injection h2

/-- C18, witness: `required=false in=path` and `in=path required=false` have
the same tokens with distinct keys, and both give `In = path`,
`Required = true`. -/
theorem C18_token_order_witness :
    parseOption (fun _ => false) "a".toList "required=false in=path".toList =
      .ok { In := InPath, Required := true } ∧
    parseOption (fun _ => false) "a".toList "in=path required=false".toList =
      .ok { In := InPath, Required := true } ∧
    ((∃ p, parseOption (fun _ => false) "a".toList "required=false in=path".toList = .ok p) ↔
      (∃ p, parseOption (fun _ => false) "a".toList "in=path required=false".toList = .ok p)) :=
  ⟨by decide, by decide,
   (C18_token_order (fun _ => false) "a".toList "required=false in=path".toList
      "in=path required=false".toList
      (by
        have h1 : Fields (TrimSpace "required=false in=path".toList) =
            ["required=false".toList, "in=path".toList] := by decide
        have h2 : Fields (TrimSpace "in=path required=false".toList) =
            ["in=path".toList, "required=false".toList] := by decide
        rw [h1, h2]
        exact List.Perm.swap _ _ _)
      (by
        have h1 : Fields (TrimSpace "required=false in=path".toList) =
            ["required=false".toList, "in=path".toList] := by decide
        rw [h1]
        unfold distinctKeys
        simp only [List.pairwise_cons, List.mem_singleton, List.not_mem_nil,
          forall_eq, false_implies, implies_true, List.Pairwise.nil, and_true]
        intro _ _
        decide)).1⟩

/-- C19: in a group that parses successfully, the last token with a given key
decides the field, for `in`, `name`, `required`, `type` and `descr` alike, and
the path and request rules are applied to those final values: `Required` is
true exactly when the last `required` value is `true` or the final location is
`path`, and a group of well-formed tokens succeeds exactly when its final
location is not `request` or its final name is `RemoteAddr`.  Every `in` value
is validated all the same: a group with any token `in=v`, `v` not one of the
four locations, never succeeds. -/
theorem C19_last_occurrence (tbl : Char → Bool) (argName s : Str) :
    (∀ p, parseOption tbl argName s = .ok p →
      ∀ pre t post, Fields (TrimSpace s) = pre ++ t :: post →
        (∀ x ∈ post, tokenKey x ≠ tokenKey t) →
        (tokenKey t = "in".toList → p.In = tokenValue t) ∧
        (tokenKey t = "name".toList → p.Name = tokenValue t) ∧
        (tokenKey t = "required".toList →
          (p.Required = true ↔ (tokenValue t = "true".toList ∨ p.In = InPath))) ∧
        (tokenKey t = "type".toList → p.Typ = tokenValue t) ∧
        (tokenKey t = "descr".toList → p.Description = tokenValue t)) ∧
    ((∀ t ∈ Fields (TrimSpace s), wellFormed t) →
      ((∃ p, parseOption tbl argName s = .ok p) ↔
        (effIn (Fields (TrimSpace s)) = InRequest →
          effName (Fields (TrimSpace s)) = "RemoteAddr".toList))) ∧
    (∀ pre t post, Fields (TrimSpace s) = pre ++ t :: post → '=' ∈ t →
      (∀ x ∈ post, tokenKey x ≠ tokenKey t) →
      lastValue (tokenKey t) (Fields (TrimSpace s)) = some (tokenValue t)) ∧
    (∀ t ∈ Fields (TrimSpace s), '=' ∈ t → tokenKey t = "in".toList →
      tokenValue t ∉ locations → ∀ p, parseOption tbl argName s ≠ .ok p) := by
  refine ⟨?_, ?_, ?_, ?_⟩
  · intro p hp pre t post hf hpost
    rw [parseOption_eq_spec] at hp
    obtain ⟨hw, -, h3⟩ := specOption_ok tbl argName _ p hp
    have hwt : wellFormed t := hw t (by rw [hf]; simp)
    have hlast : lastValue (tokenKey t) (Fields (TrimSpace s)) = some (tokenValue t) := by
      rw [hf]
      exact lastValue_last _ pre t post hwt.1 rfl hpost
    have hpath : p.In = InPath ↔ effIn (Fields (TrimSpace s)) = InPath := by
      rw [h3]
      unfold specParameter
      simp only
      by_cases h0 : effIn (Fields (TrimSpace s)) = []
      · rw [if_pos h0, h0]
        constructor <;> intro h <;> revert h <;> decide
      · rw [if_neg h0]
    refine ⟨?_, ?_, ?_, ?_, ?_⟩
    · intro hk
      rw [hk] at hlast
      have hv : tokenValue t ≠ [] := by
        intro h0
        have := hwt.2.2 hk
        rw [h0] at this
        revert this
        decide
      rw [h3]
      unfold specParameter effIn
      simp only [hlast, Option.getD_some]
      rw [if_neg hv]
    · intro hk
      rw [hk] at hlast
      rw [h3]
      unfold specParameter effName
      simp only [hlast, Option.getD_some]
    · intro hk
      rw [hk] at hlast
      rw [hpath, h3]
      unfold specParameter effRequired
      simp only [hlast, Bool.or_eq_true, decide_eq_true_eq, Option.some.injEq]
      tauto
    · intro hk
      rw [hk] at hlast
      rw [h3]
      unfold specParameter
      simp only [hlast, Option.getD_some]
    · intro hk
      rw [hk] at hlast
      rw [h3]
      unfold specParameter
      simp only [hlast, Option.getD_some]
  · intro hw
    rw [parseOption_eq_spec, specOption_of_wf tbl argName _ hw]
    by_cases hr : effIn (Fields (TrimSpace s)) = InRequest ∧
        effName (Fields (TrimSpace s)) ≠ "RemoteAddr".toList
    · rw [if_pos hr]
      constructor
      · rintro ⟨p, hp⟩; cases hp
      · intro h; exact absurd (h hr.1) hr.2
    · rw [if_neg hr]
      constructor
      · intro _ h1
        by_contra h2
        exact hr ⟨h1, h2⟩
      · intro _; exact ⟨_, rfl⟩
  · intro pre t post hf he hpost
    rw [hf]
    exact lastValue_last _ pre t post he rfl hpost
  · intro t ht he hk hv p hp
    rw [parseOption_eq_spec] at hp
    exact hv ((specOption_ok tbl argName _ p hp).1 t ht |>.2.2 hk)

/-- C19, witness: `in=request in=query name=Foo` succeeds with `In = query`
and `Name = Foo`, the last `in` token deciding the location, while
`in=cookie in=query` fails although the last `in` value is valid. -/
theorem C19_last_occurrence_witness :
    parseOption (fun _ => false) "a".toList "in=request in=query name=Foo".toList =
      .ok { In := InQuery, Name := "Foo".toList } ∧
    ({ In := InQuery, Name := "Foo".toList } : Parameter).In = tokenValue "in=query".toList ∧
    ∀ p, parseOption (fun _ => false) "a".toList "in=cookie in=query".toList ≠ .ok p :=
  ⟨by decide,
   ((C19_last_occurrence (fun _ => false) "a".toList
      "in=request in=query name=Foo".toList).1 { In := InQuery, Name := "Foo".toList }
      (by decide) ["in=request".toList] "in=query".toList ["name=Foo".toList] (by decide)
      (by decide)).1 (by decide),
   (C19_last_occurrence (fun _ => false) "a".toList "in=cookie in=query".toList).2.2.2
      "in=cookie".toList (by decide) (by decide) (by decide) (by decide)⟩

/-- C20: an option value never holds white space.  For `u` and `w` with no
white space, `,` or `;`, `w` not empty and without `=`, the directive
`a descr=u w` fails with `invalid parameter pair: ` followed by `w`.  And in
every successful result of `ParseParams` no `Name`, `Type` or `Description`
holds a white space character, a `,` or a `;`; those of `ParseParamOptions`
hold no white space and no `,`, those of `parseOption` no white space. -/
theorem C20_no_whitespace_values (tbl : Char → Bool) :
    (∀ u w : Str, w ≠ [] → (∀ c ∈ u, isSpace c = false ∧ c ≠ ',' ∧ c ≠ ';') →
      (∀ c ∈ w, isSpace c = false ∧ c ≠ '=' ∧ c ≠ ',' ∧ c ≠ ';') →
      ParseParams tbl ("a descr=".toList ++ u ++ " ".toList ++ w) =
        .error ("invalid parameter pair: ".toList ++ w)) ∧
    (∀ s l, ParseParams tbl s = .ok l → ∀ b ∈ l, ∀ p ∈ b.Params,
      ∀ c, (c ∈ p.Name ∨ c ∈ p.Typ ∨ c ∈ p.Description) →
        isSpace c = false ∧ c ≠ ',' ∧ c ≠ ';') ∧
    (∀ argName s l, ParseParamOptions tbl argName s = .ok l → ∀ p ∈ l,
      ∀ c, (c ∈ p.Name ∨ c ∈ p.Typ ∨ c ∈ p.Description) → isSpace c = false ∧ c ≠ ',') ∧
    (∀ argName s p, parseOption tbl argName s = .ok p →
      ∀ c, (c ∈ p.Name ∨ c ∈ p.Typ ∨ c ∈ p.Description) → isSpace c = false) := by
  refine ⟨?_, ?_, ?_, ?_⟩
  · intro u w hw0 hu hw
    have hnl : ∀ c : Char, isSpace c = false → c ≠ '\n' := by
      intro c h
      rintro rfl
      revert h
      decide
    have hd : ∀ c ∈ "descr=".toList ++ u, isSpace c = false ∧ c ≠ ',' ∧ c ≠ ';' := by
      intro c hc
      rcases List.mem_append.1 hc with h | h
      · have hk : ∀ d ∈ "descr=".toList, isSpace d = false ∧ d ≠ ',' ∧ d ≠ ';' := by decide
        exact hk c h
      · exact hu c h
    have hshape : "a descr=".toList ++ u ++ " ".toList ++ w =
        'a' :: ' ' :: (("descr=".toList ++ u) ++ ' ' :: w) := by
      simp
    have hfree : ∀ c ∈ ("descr=".toList ++ u) ++ ' ' :: w, c ≠ ';' ∧ c ≠ ',' ∧ c ≠ '\n' := by
      intro c hc
      rcases List.mem_append.1 hc with h | h
      · exact ⟨(hd c h).2.2, (hd c h).2.1, hnl c (hd c h).1⟩
      · rcases List.mem_cons.1 h with rfl | h
        · decide
        · exact ⟨(hw c h).2.2.2, (hw c h).2.2.1, hnl c (hw c h).1⟩
    have hhead : ∀ c ∈ (("descr=".toList ++ u) ++ ' ' :: w).head?, isSpace c = false := by
      intro c hc
      have : c = 'd' := by simpa using hc.symm
      rw [this]; decide
    have hlast : ∀ c ∈ (("descr=".toList ++ u) ++ ' ' :: w).getLast?, isSpace c = false := by
      intro c hc
      have h1 := getLast?_append_cons_mem _ ' ' w c hc
      cases w with
      | nil => exact absurd rfl hw0
      | cons b w =>
        have h2 : c ∈ (("descr=".toList ++ u ++ [' ']) ++ b :: w).getLast? := by
          simpa using hc
        exact (hw c (getLast?_append_cons_mem _ b w c h2)).1
    have hg := ParseParams_single tbl (("descr=".toList ++ u) ++ ' ' :: w) (by simp)
      hhead hlast hfree
    have hopt : parseOption tbl ['a'] (("descr=".toList ++ u) ++ ' ' :: w) =
        .error ("invalid parameter pair: ".toList ++ w) := by
      rw [parseOption_eq_spec, TrimSpace_of_ends _ hhead hlast,
        Fields_two _ w (by simp) hw0 (fun c hc => (hd c hc).1) (fun c hc => (hw c hc).1)]
      have hwf : ∀ x ∈ ["descr=".toList ++ u], wellFormed x := by
        intro x hx
        rw [List.mem_singleton.1 hx]
        have ht := token_of_append "descr".toList u (by decide)
        have he : "descr".toList ++ '=' :: u = "descr=".toList ++ u := by simp
        rw [he] at ht
        refine ⟨ht.1, ?_, ?_⟩
        · rw [ht.2.1]; decide
        · rw [ht.2.1]
          intro h
          exact absurd h (by decide)
      have hbad : ¬ wellFormed w := fun h => (hw '=' h.1).2.1 rfl
      have := specOption_of_bad tbl ['a'] ["descr=".toList ++ u] w [] hwf hbad
      rw [List.singleton_append] at this
      rw [this]
      unfold tokenError
      rw [if_pos (fun h => (hw '=' h).2.1 rfl)]
    rw [hshape, hg, hopt]
  · intro s l hl b hb p hp c hc
    obtain ⟨seg, hseg, hpar⟩ := ParseParams_mem tbl s l hl b hb
    obtain ⟨-, -, h3⟩ := parseParam_ok tbl seg b hpar
    rcases h3 with ⟨-, h4⟩ | ⟨-, h4⟩
    · rw [h4] at hp; cases hp
    · obtain ⟨h5, h6, h7⟩ := ParseParamOptions_chars tbl _ _ _ h4 p hp c hc
      refine ⟨h5, h6, ?_⟩
      have h8 : c ∈ seg :=
        TrimSpace_subset seg c ((List.dropWhile_sublist _).subset (TrimSpace_subset _ c h7))
      rintro rfl
      exact Split_free _ ';' seg hseg h8
  · intro argName s l hl p hp c hc
    obtain ⟨h5, h6, -⟩ := ParseParamOptions_chars tbl argName s l hl p hp c hc
    exact ⟨h5, h6⟩
  · intro argName s p hp c hc
    exact (parseOption_chars tbl argName s p hp c hc).1

/-- C20, witness: `a descr=the user` fails on the token `user`. -/
theorem C20_no_whitespace_values_witness :
    ParseParams (fun _ => false) ("a descr=".toList ++ "the".toList ++ " ".toList ++
      "user".toList) = .error ("invalid parameter pair: ".toList ++ "user".toList) :=
  (C20_no_whitespace_values (fun _ => false)).1 "the".toList "user".toList (by decide)
    (by decide) (by decide)

end Kun
